import Mathlib

/-!
Verification development for the vsag HNSW example repository.

The repository's own sources are the example drivers
(`src/examples/cpp/101_index_hnsw.cpp`, `src/examples/cpp/110_search_hnsw.cpp`)
and a timer header.  The data-loading helpers `load_data` and
`load_data_groundtruth` are embedded directly from that source.  The HNSW
index core (Build / KnnSearch / Serialize / Deserialize) that the examples
call lives in the external `vsag` library, not in this repository, so it is
modelled from the specification (spec.md sections 3-4 and 6-8); every such
definition carries a doc comment starting with `Modelled from the spec:`.

Files are modelled as lists of byte values (`List Nat`, each < 256 in
practice); 32-bit little-endian words are decoded explicitly.  Vector
components and distances are modelled as exact integers (`Int`) standing in
for the float values (the spec's round-trip contract is "bit-for-bit
distance computations aside").
-/

namespace Vsag

/-- Little-endian decoding of (up to) 4 bytes into an unsigned 32-bit value,
as done by `in.read((char*)&x, 4)` on a little-endian machine. -/
def decodeU32 (bs : List Nat) : Nat :=
  bs.getD 0 0 + 256 * bs.getD 1 0 + 65536 * bs.getD 2 0 + 16777216 * bs.getD 3 0

/-- Little-endian decoding of 4 bytes into a signed 32-bit `int`. -/
def decodeI32 (bs : List Nat) : Int :=
  let u := decodeU32 bs
  if u < 2 ^ 31 then (u : Int) else (u : Int) - 2 ^ 32

/-- The record-reading loop of `load_data`
(`src/examples/cpp/101_index_hnsw.cpp:46-50`): starting at byte offset
`pos`, each iteration skips a 4-byte header (`in.seekg(4, cur)`) and reads
`dim * 4` bytes of vector payload (`in.read(..., dim * 4)`). -/
def loadRecords (f : List Nat) (dim : Nat) : Nat → Nat → List (List Nat)
  | _, 0 => []
  | pos, k + 1 =>
    ((f.drop (pos + 4)).take (4 * dim)) :: loadRecords f dim (pos + 4 + 4 * dim) k

/-- Embedding of `load_data` (`src/examples/cpp/101_index_hnsw.cpp:22-53`,
identical in `110_search_hnsw.cpp:24-55`): decodes `dim` from the first
4 bytes, computes `num = (unsigned)(fsize / (dim + 1) / 4)` with the file
size in bytes — the `(unsigned)` cast truncates the count to 32 bits,
modelled as `% 2 ^ 32` — then reads `num` records of `dim` 4-byte floats,
each preceded by a 4-byte header.  Records are kept as raw byte lists
(float payloads). -/
def load_data (f : List Nat) : Int × Nat × List (List Nat) :=
  let dim : Int := decodeI32 (f.take 4)
  let num : Nat := (f.length / (dim.toNat + 1) / 4) % 2 ^ 32
  (dim, num, loadRecords f dim.toNat 0 num)

/-- Decoding of `k` consecutive little-endian 32-bit words, as used for
ground-truth entries (`unsigned int` values). -/
def readWords (bs : List Nat) : Nat → List Nat
  | 0 => []
  | k + 1 => decodeU32 (bs.take 4) :: readWords (bs.drop 4) k

/-- The record loop of `load_data_groundtruth`
(`src/examples/cpp/110_search_hnsw.cpp:87-101`): each iteration reads a
4-byte header `temp`, exits with an error if `temp != groundtruth_num`,
then reads `temp * 4` bytes (that is, `gn` 32-bit entries).  `exit(-1)` is
modelled as `none`. -/
def readGtRecords (f : List Nat) (gn : Nat) : Nat → Nat → Option (List (List Nat))
  | _, 0 => some []
  | pos, k + 1 =>
    let temp := decodeU32 ((f.drop pos).take 4)
    if temp = gn then
      match readGtRecords f gn (pos + 4 + 4 * gn) k with
      | some rest => some (readWords (f.drop (pos + 4)) gn :: rest)
      | none => none
    else none

/-- Embedding of `load_data_groundtruth`
(`src/examples/cpp/110_search_hnsw.cpp:57-104`): checks
`(unsigned)(fsize / (groundtruth_num + 1) / 4) != query_num` — the
`(unsigned)` cast truncates the quotient to 32 bits and the `int`
`query_num` is converted to `unsigned` for the comparison, modelled as
`% 2 ^ 32` on both sides — on failure `exit(-1)`, modelled as `none`;
then reads `query_num` records of `groundtruth_num` 32-bit entries, each
preceded by a 4-byte header that must equal `groundtruth_num`. -/
def load_data_groundtruth (f : List Nat) (gn qn : Nat) : Option (List (List Nat)) :=
  if (f.length / (gn + 1) / 4) % 2 ^ 32 = qn % 2 ^ 32 then readGtRecords f gn 0 qn else none

/-! ## HNSW core: data model

Modelled from the spec (spec.md section 3): the implementation of the
`vsag` HNSW index is not part of this repository, only its callers are. -/

/-- Modelled from the spec: the error taxonomy of spec.md section 7 — errors
are explicit result values, never uncatchable faults. -/
inductive VsagError where
  | duplicateId
  | dimMismatch
  | corruption
  | emptyIndex
  deriving Repr, DecidableEq

/-- Modelled from the spec: the distance metric variants
`metric_type ∈ {l2, ip, cosine}` (spec.md section 6). -/
inductive Metric where
  | l2
  | ip
  | cosine
  deriving Repr, DecidableEq

/-- Modelled from the spec: construction parameters of the missing index
core (spec.md section 6): `dim`, `max_degree`, `ef_construction`, and the
metric. -/
structure HnswParams where
  dim : Nat
  maxDegree : Nat
  efConstruction : Nat
  metric : Metric
  deriving Repr, DecidableEq

/-- Modelled from the spec: a node of the layered graph store (spec.md
section 3): an externally supplied 64-bit id, one owned vector, a maximum
layer sampled at insertion, and per-layer adjacency (internal dense
indices), layer 0 first. -/
structure Node where
  id : Int
  vec : List Int
  level : Nat
  nbrs : List (List Nat)
  deriving Repr, DecidableEq

/-- Modelled from the spec: the layered graph store (spec.md sections 3 and
4.2): nodes in internal dense-index order plus the entry point (meaningful
once at least one node is present). -/
structure Store where
  params : HnswParams
  nodes : List Node
  entry : Nat
  deriving Repr, DecidableEq

/-- Modelled from the spec: a fresh, empty index as produced by
`Factory::CreateIndex`. -/
def emptyStore (p : HnswParams) : Store :=
  { params := p, nodes := [], entry := 0 }

/-- The node at internal index `i` (a default placeholder outside range;
the store performs bounds checking per spec.md 4.2). -/
def nodeAt (s : Store) (i : Nat) : Node :=
  s.nodes.getD i { id := 0, vec := [], level := 0, nbrs := [] }

/-- Modelled from the spec: `vector_of(internal_index)` (spec.md 4.2). -/
def vecOf (s : Store) (i : Nat) : List Int :=
  (nodeAt s i).vec

/-- Modelled from the spec: `neighbors(internal_index, layer)`
(spec.md 4.2); an absent layer reads as the empty adjacency list. -/
def nbrsAt (s : Store) (i layer : Nat) : List Nat :=
  (nodeAt s i).nbrs.getD layer []

/-- Modelled from the spec: the per-layer degree cap — `2 × max_degree` at
layer 0 and `max_degree` at the layers above (spec.md section 3, section 8
"Degree bound"). -/
def capAt (p : HnswParams) (layer : Nat) : Nat :=
  if layer = 0 then 2 * p.maxDegree else p.maxDegree

/-- In-place update of the `i`-th element of a list (identity out of
range), modelling array element assignment. -/
def listModify (f : α → α) : Nat → List α → List α
  | _, [] => []
  | 0, x :: xs => f x :: xs
  | i + 1, x :: xs => x :: listModify f i xs

/-- Replace layer `layer` of a per-node adjacency table, padding with empty
layers if the table is shorter. -/
def setLayerList : List (List Nat) → Nat → List Nat → List (List Nat)
  | [], 0, v => [v]
  | [], layer + 1, v => [] :: setLayerList [] layer v
  | _ :: xs, 0, v => v :: xs
  | x :: xs, layer + 1, v => x :: setLayerList xs layer v

/-- Modelled from the spec: `set_neighbors(internal_index, layer, list)`
(spec.md 4.2): replaces the adjacency of node `i` at one layer. -/
def setNbrs (s : Store) (i layer : Nat) (v : List Nat) : Store :=
  { s with nodes := listModify (fun nd => { nd with nbrs := setLayerList nd.nbrs layer v }) i s.nodes }

/-- Modelled from the spec: the distance module (spec.md 4.1), dispatching
on the metric; inner product (and cosine, whose float normalisation is
outside this integer model) are negated so that smaller is better, as the
spec requires of the internal ordering. -/
def dist (m : Metric) (a b : List Int) : Int :=
  match m with
  | .l2 => ((List.zipWith (fun x y => (x - y) * (x - y)) a b).sum)
  | .ip => -((List.zipWith (fun x y => x * y) a b).sum)
  | .cosine => -((List.zipWith (fun x y => x * y) a b).sum)

/-- `GetNumElements` of the index façade. -/
def GetNumElements (s : Store) : Nat :=
  s.nodes.length

/-! ## HNSW core: greedy search engine

Modelled from the spec (spec.md 4.4). -/

/-- Stable insertion into a distance-sorted queue: the new pair goes after
every pair with an equal or smaller distance (ties broken by insertion
order, spec.md 4.3). -/
def insertSorted : List (Nat × Int) → (Nat × Int) → List (Nat × Int)
  | [], p => [p]
  | x :: xs, p => if p.2 < x.2 then p :: x :: xs else x :: insertSorted xs p

/-- The worst (largest) distance currently kept in the bounded result
queue, i.e. the distance of its last element. -/
def worstD (result : List (Nat × Int)) : Int :=
  ((result.getLast?).map Prod.snd).getD 0

/-- Modelled from the spec: one neighbor expansion of the greedy search
loop (spec.md 4.4): an unvisited neighbor is marked visited, its distance
to the query is computed, and it is inserted into both the candidate queue
and the `ef`-bounded result queue. -/
def expandOne (s : Store) (q : List Int) (ef : Nat)
    (st : List (Nat × Int) × List (Nat × Int) × List Nat) (nb : Nat) :
    List (Nat × Int) × List (Nat × Int) × List Nat :=
  if nb ∈ st.2.2 then st
  else
    let d := dist s.params.metric q (vecOf s nb)
    (insertSorted st.1 (nb, d), (insertSorted st.2.1 (nb, d)).take ef, nb :: st.2.2)

/-- Modelled from the spec: the greedy best-first loop of the search engine
(spec.md 4.4): repeatedly pop the closest candidate; stop when the result
queue is full and the popped distance exceeds the current worst kept
result; otherwise expand every unvisited neighbor at the given layer.  The
fuel argument bounds the iteration count (each node is expanded at most
once, so the fuel chosen by `searchLayer` is never the reason the loop
stops). -/
def searchGo (s : Store) (q : List Int) (layer ef : Nat) :
    Nat → List (Nat × Int) → List (Nat × Int) → List Nat → List (Nat × Int)
  | 0, _, result, _ => result
  | _ + 1, [], result, _ => result
  | fuel + 1, (c, dc) :: rest, result, vis =>
    if ef ≤ result.length ∧ worstD result < dc then result
    else
      let st := (nbrsAt s c layer).foldl (expandOne s q ef) (rest, result, vis)
      searchGo s q layer ef fuel st.1 st.2.1 st.2.2

/-- Modelled from the spec: `search(query, entry_points, ef, layer)`
(spec.md 4.4): seeds the candidate queue with the entry points (marked
visited), bounds the result queue to `ef`, and runs the greedy loop;
returns the results sorted ascending by distance. -/
def searchLayer (s : Store) (q : List Int) (eps : List Nat) (ef layer : Nat) :
    List (Nat × Int) :=
  let entries := eps.foldl (fun acc e => insertSorted acc (e, dist s.params.metric q (vecOf s e))) []
  searchGo s q layer ef (s.nodes.length + eps.length + 1) entries (entries.take ef) eps

/-! ## HNSW core: neighbor selection policy

Modelled from the spec (spec.md 4.3). -/

/-- Modelled from the spec: the scan of the heuristic pruning loop
(spec.md 4.3).  `kept` accumulates the pairs already kept, `quota` is the
remaining keep budget; a candidate `(c, dc)` (distance `dc` to the target)
is kept only if it is closer to the target than to every already-kept
candidate. -/
def selectAux (s : Store) : List (Nat × Int) → Nat → List (Nat × Int) → List (Nat × Int)
  | _, 0, _ => []
  | _, _ + 1, [] => []
  | kept, quota + 1, (c, dc) :: rest =>
    if ∀ r ∈ kept, dc < dist s.params.metric (vecOf s c) (vecOf s r.1) then
      (c, dc) :: selectAux s (kept ++ [(c, dc)]) quota rest
    else
      selectAux s kept (quota + 1) rest

/-- Modelled from the spec: the kept (index, distance) pairs of
`select(candidates, target_vector, max_keep)` (spec.md 4.3); `cands` is
ordered ascending by distance to the target, so the scan starts from the
closest candidate. -/
def selectNeighborsP (s : Store) (cands : List (Nat × Int)) (maxKeep : Nat) :
    List (Nat × Int) :=
  selectAux s [] maxKeep cands

/-- Modelled from the spec: `select(candidates, target_vector, max_keep)`
(spec.md 4.3), returning the kept internal indices in kept order. -/
def selectNeighbors (s : Store) (cands : List (Nat × Int)) (maxKeep : Nat) : List Nat :=
  (selectNeighborsP s cands maxKeep).map Prod.fst

/-! ## HNSW core: builder

Modelled from the spec (spec.md 4.5).  The sampled layer `l_node` is an
explicit argument (spec.md section 9 makes the RNG an explicit stream; the
claims quantify over every possible sampled value). -/

/-- Distance-sorted pairing of a list of internal indices against a target
vector, used when re-pruning an overflowing neighbor (spec.md 4.5 step 4:
the neighbor's full candidate-plus-new-node set is fed to the selection
policy, which scans candidates from the closest). -/
def sortByDist (s : Store) (target : List Int) (l : List Nat) : List (Nat × Int) :=
  l.foldl (fun acc u => insertSorted acc (u, dist s.params.metric target (vecOf s u))) []

/-- Modelled from the spec: the re-pruned adjacency of an overflowing
neighbor `v` (spec.md 4.5 step 4): the selection policy re-applied, under
`v`'s cap, to `v`'s full candidate set `withN` (current neighbors plus the
new node), ordered by distance to `v`'s vector. -/
def repruneList (s : Store) (l v : Nat) (withN : List Nat) : List Nat :=
  selectNeighbors s (sortByDist s (vecOf s v) withN) (capAt s.params l)

/-- Modelled from the spec: removal of the reverse direction of every
dropped edge of `v` (spec.md section 7: a repair step must not leave
asymmetric edges): `v` is removed from the adjacency of each node in `ds`
at layer `l`. -/
def removeReverse (s : Store) (l v : Nat) (ds : List Nat) : Store :=
  ds.foldl (fun acc u => setNbrs acc u l ((nbrsAt acc u l).filter (fun w => w ≠ v))) s

/-- Modelled from the spec: wiring one directed half of a new edge plus
degree repair (spec.md 4.5 step 4): the new node `n` is appended to `v`'s
adjacency at layer `l`; if `v`'s degree now exceeds its cap, the selection
policy is re-applied to `v`'s full candidate set and `v` is re-pruned, and
every dropped edge is also removed in the reverse direction. -/
def addEdgeTo (s : Store) (l n v : Nat) : Store :=
  if capAt s.params l < (nbrsAt s v l ++ [n]).length then
    removeReverse
      (setNbrs s v l (repruneList s l v (nbrsAt s v l ++ [n]))) l v
      ((nbrsAt s v l ++ [n]).filter
        (fun u => u ∉ repruneList s l v (nbrsAt s v l ++ [n])))
  else
    setNbrs s v l (nbrsAt s v l ++ [n])

/-- Modelled from the spec: wiring the new node `n` to its selected
neighbors at layer `l` with bidirectional edges (spec.md 4.5 step 4): `n`'s
adjacency at `l` starts empty; each selected `v` is appended to `n`'s list
and `n` to `v`'s list (with degree repair on `v`). -/
def connectLayer (s : Store) (l n : Nat) (sel : List Nat) : Store :=
  sel.foldl (fun acc v => addEdgeTo (setNbrs acc n l (nbrsAt acc n l ++ [v])) l n v)
    (setNbrs s n l [])

/-- Modelled from the spec: one layer of the per-layer connection loop
(spec.md 4.5 step 4): gather candidates with `ef = ef_construction`, apply
the selection policy under the layer's cap, wire bidirectional edges; the
closest candidate becomes the entry point for the next layer down. -/
def connectStep (q : List Int) (n : Nat) (l : Nat) (s : Store) (ep : Nat) : Store × Nat :=
  let cands := searchLayer s q [ep] s.params.efConstruction l
  let kept := selectNeighbors s cands (capAt s.params l)
  (connectLayer s l n kept, ((cands.head?).map Prod.fst).getD ep)

/-- Modelled from the spec: the connection loop over layers `l` down
to 0 (spec.md 4.5 step 4). -/
def connectFrom (q : List Int) (n : Nat) : Nat → Store → Nat → Store
  | 0, s, ep => (connectStep q n 0 s ep).1
  | l + 1, s, ep =>
    let r := connectStep q n (l + 1) s ep
    connectFrom q n l r.1 r.2

/-- Modelled from the spec: the best single entry candidate found by an
`ef = 1` search at one layer (spec.md 4.5 step 3, spec.md 4.4 "only a
single best entry point is needed" above layer 0). -/
def bestEntry (s : Store) (q : List Int) (ep l : Nat) : Nat :=
  (((searchLayer s q [ep] 1 l).head?).map Prod.fst).getD ep

/-- Modelled from the spec: the coarse `ef = 1` descent (spec.md 4.5
step 3 and 4.4): starting at layer `top`, process `k` layers going down
(`top, top - 1, ...`), refining the entry point at each. -/
def descendSteps (s : Store) (q : List Int) : Nat → Nat → Nat → Nat
  | ep, _, 0 => ep
  | ep, top, k + 1 => descendSteps s q (bestEntry s q ep top) (top - 1) k

/-- Modelled from the spec: a freshly inserted node — sampled layer
`l_node`, empty adjacency at layers `0 .. l_node` (spec.md section 3). -/
def newNodeOf (newId : Int) (v : List Int) (lNode : Nat) : Node :=
  { id := newId, vec := v, level := lNode, nbrs := List.replicate (lNode + 1) [] }

/-- Modelled from the spec: `add_node` — append the new node's storage at
the next internal dense index (spec.md 4.2). -/
def appendNode (s : Store) (nd : Node) : Store :=
  { s with nodes := s.nodes ++ [nd] }

/-- Modelled from the spec: the entry-point update rule — the new node at
internal index `newIdx` becomes the entry point when its sampled layer
exceeds the previous top layer (spec.md 4.5 step 5). -/
def growEntry (s2 : Store) (topL lNode newIdx : Nat) : Store :=
  if topL < lNode then { s2 with entry := newIdx } else s2

/-- Modelled from the spec: the successful-insertion path of the builder
(spec.md 4.5): an empty store adopts the new node as entry point;
otherwise the new node is appended, the `ef = 1` descent runs through the
layers strictly above `l_node`, the connection loop runs from
`min(l_node, top_layer)` down to 0, and the entry point moves to the new
node when `l_node` exceeds the previous top layer. -/
def insertOk (s : Store) (newId : Int) (v : List Int) (lNode : Nat) : Store :=
  if s.nodes.isEmpty then
    { params := s.params, nodes := [newNodeOf newId v lNode], entry := 0 }
  else
    growEntry
      (connectFrom v s.nodes.length (min lNode (nodeAt s s.entry).level)
        (appendNode s (newNodeOf newId v lNode))
        (descendSteps (appendNode s (newNodeOf newId v lNode)) v s.entry
          (nodeAt s s.entry).level ((nodeAt s s.entry).level - lNode)))
      (nodeAt s s.entry).level lNode s.nodes.length

/-- Modelled from the spec: `insert(id, vector)` of the builder
(spec.md 4.5): fails with a duplicate-id error if the id is already
present, with a dimension-mismatch error if the vector length differs from
the index dimension, and otherwise performs the insertion. -/
def insert (s : Store) (newId : Int) (v : List Int) (lNode : Nat) :
    Except VsagError Store :=
  if ∃ nd ∈ s.nodes, nd.id = newId then .error .duplicateId
  else if v.length ≠ s.params.dim then .error .dimMismatch
  else .ok (insertOk s newId v lNode)

/-- The store after an `insert` call: the new store on success, the
unchanged store when the call failed (the caller keeps its index). -/
def applyInsert (s : Store) (newId : Int) (v : List Int) (lNode : Nat) : Store :=
  match insert s newId v lNode with
  | .ok s' => s'
  | .error _ => s

/-- One insertion request: id, vector, and the sampled layer. -/
structure InsertReq where
  id : Int
  vec : List Int
  level : Nat
  deriving Repr, DecidableEq

/-- Modelled from the spec: `Build` as the one-at-a-time insertion of a
batch (spec.md 4.5), starting from a given store. -/
def buildFrom (s : Store) : List InsertReq → Store
  | [] => s
  | r :: rest => buildFrom (applyInsert s r.id r.vec r.level) rest

/-- The highest populated layer of the store: every node is present at
layers `0 .. level`, so this is the largest node level (spec.md section 3). -/
def maxLevel (s : Store) : Nat :=
  (s.nodes.map Node.level).foldr max 0

/-! ## HNSW core: serializer

Modelled from the spec (spec.md 4.6 and section 6): an opaque versioned
binary blob — header (magic / version / dim / metric / count), body
(per-node vector and per-layer adjacency), trailer (entry point).  The
stream is modelled as a list of integer tokens; every decoder failure path
is `none`, surfaced by `deserialize` as the corruption error. -/

/-- The magic tag of the persisted format. -/
def MAGIC : Int := 86851

/-- The version tag of the persisted format. -/
def VERSION : Int := 1

/-- Encoding of the metric tag. -/
def encodeMetric : Metric → Int
  | .l2 => 0
  | .ip => 1
  | .cosine => 2

/-- Decoding of the metric tag; unknown tags are corruption. -/
def decodeMetric (t : Int) : Option Metric :=
  if t = 0 then some .l2 else if t = 1 then some .ip else if t = 2 then some .cosine else none

/-- One adjacency layer: length-prefixed list of internal indices. -/
def encodeLayer (ls : List Nat) : List Int :=
  (Int.ofNat ls.length) :: ls.map Int.ofNat

/-- One node: id, level, length-prefixed vector, length-prefixed adjacency
layers. -/
def encodeNode (nd : Node) : List Int :=
  nd.id :: Int.ofNat nd.level :: Int.ofNat nd.vec.length :: (nd.vec ++
    Int.ofNat nd.nbrs.length :: (nd.nbrs.map encodeLayer).flatten)

/-- Modelled from the spec: `Serialize` — `write(store) -> byte stream`
(spec.md 4.6): header, per-node body, entry-point trailer. -/
def serialize (s : Store) : List Int :=
  MAGIC :: VERSION :: Int.ofNat s.params.dim :: encodeMetric s.params.metric ::
    Int.ofNat s.nodes.length :: ((s.nodes.map encodeNode).flatten ++ [Int.ofNat s.entry])

/-- Read one raw token from the stream. -/
def readTok : List Int → Option (Int × List Int)
  | [] => none
  | t :: rest => some (t, rest)

/-- Read one non-negative token (a length, count, index or level field);
a negative token is corruption. -/
def readNat0 : List Int → Option (Nat × List Int)
  | [] => none
  | t :: rest => if 0 ≤ t then some (t.toNat, rest) else none

/-- Read `n` raw tokens (a vector payload). -/
def readToks : Nat → List Int → Option (List Int × List Int)
  | 0, l => some ([], l)
  | n + 1, l =>
    match readTok l with
    | none => none
    | some (t, rest) =>
      match readToks n rest with
      | none => none
      | some (v, rest') => some (t :: v, rest')

/-- Read `n` non-negative tokens (an adjacency payload). -/
def readNats : Nat → List Int → Option (List Nat × List Int)
  | 0, l => some ([], l)
  | n + 1, l =>
    match readNat0 l with
    | none => none
    | some (t, rest) =>
      match readNats n rest with
      | none => none
      | some (v, rest') => some (t :: v, rest')

/-- Read one length-prefixed adjacency layer. -/
def readLayer (l : List Int) : Option (List Nat × List Int) :=
  match readNat0 l with
  | none => none
  | some (len, l1) => readNats len l1

/-- Read `k` adjacency layers. -/
def readLayers : Nat → List Int → Option (List (List Nat) × List Int)
  | 0, l => some ([], l)
  | k + 1, l =>
    match readLayer l with
    | none => none
    | some (ls, l1) =>
      match readLayers k l1 with
      | none => none
      | some (lss, l2) => some (ls :: lss, l2)

/-- Read one node record. -/
def readNode (l : List Int) : Option (Node × List Int) :=
  match readTok l with
  | none => none
  | some (ndId, l1) =>
    match readNat0 l1 with
    | none => none
    | some (lvl, l2) =>
      match readNat0 l2 with
      | none => none
      | some (vlen, l3) =>
        match readToks vlen l3 with
        | none => none
        | some (v, l4) =>
          match readNat0 l4 with
          | none => none
          | some (nlay, l5) =>
            match readLayers nlay l5 with
            | none => none
            | some (nbrs, l6) =>
              some ({ id := ndId, vec := v, level := lvl, nbrs := nbrs }, l6)

/-- Read `c` node records. -/
def readNodes : Nat → List Int → Option (List Node × List Int)
  | 0, l => some ([], l)
  | c + 1, l =>
    match readNode l with
    | none => none
    | some (nd, l1) =>
      match readNodes c l1 with
      | none => none
      | some (nds, l2) => some (nd :: nds, l2)

/-- Read a whole store against the configured parameters `cfg`: checks the
magic and version tags and rejects a decoded dimension or metric that
disagrees with the configuration (spec.md section 6). -/
def readStore (cfg : HnswParams) (l : List Int) : Option (Store × List Int) :=
  match readTok l with
  | none => none
  | some (m, l1) =>
    if m = MAGIC then
      match readTok l1 with
      | none => none
      | some (ver, l2) =>
        if ver = VERSION then
          match readNat0 l2 with
          | none => none
          | some (d, l3) =>
            if d = cfg.dim then
              match readTok l3 with
              | none => none
              | some (mt, l4) =>
                match decodeMetric mt with
                | none => none
                | some met =>
                  if met = cfg.metric then
                    match readNat0 l4 with
                    | none => none
                    | some (count, l5) =>
                      match readNodes count l5 with
                      | none => none
                      | some (nds, l6) =>
                        match readNat0 l6 with
                        | none => none
                        | some (ent, l7) =>
                          some ({ params := cfg, nodes := nds, entry := ent }, l7)
                  else none
            else none
        else none
    else none

/-- Modelled from the spec: `Deserialize` — `read(byte stream) -> store`
(spec.md 4.6): every malformed stream fails with the corruption error;
on failure no store is produced (atomicity, spec.md section 7(d)). -/
def deserialize (cfg : HnswParams) (l : List Int) : Except VsagError Store :=
  match readStore cfg l with
  | some (s, _) => .ok s
  | none => .error .corruption

/-- Modelled from the spec: `KnnSearch(query, k, ef_search)` of the index
façade (spec.md 4.4): fails on an empty index, otherwise descends with
`ef = 1` from the stored entry point through the layers above 0, runs the
layer-0 search with `ef_search`, truncates to `k`, and maps internal
indices back to external ids. -/
def KnnSearch (s : Store) (q : List Int) (k efSearch : Nat) :
    Except VsagError (List (Int × Int)) :=
  if s.nodes.isEmpty then .error .emptyIndex
  else
    let top := (nodeAt s s.entry).level
    let ep := descendSteps s q s.entry top top
    let res0 := searchLayer s q [ep] efSearch 0
    .ok ((res0.take k).map (fun p => ((nodeAt s p.1).id, p.2)))

/-! ## Invariant predicates (spec.md section 3 "Invariants") -/

/-- A queue of (index, distance) pairs sorted ascending by distance. -/
def SortedD (l : List (Nat × Int)) : Prop :=
  l.Pairwise (fun a b => a.2 ≤ b.2)

/-- Every adjacency entry at layer `l` is an internal index below `B`. -/
def NbrBound (s : Store) (l B : Nat) : Prop :=
  ∀ i, ∀ j ∈ nbrsAt s i l, j < B

/-- Adjacency at layer `l` is bidirectional (spec.md section 3). -/
def SymAt (s : Store) (l : Nat) : Prop :=
  ∀ a b, a ∈ nbrsAt s b l → b ∈ nbrsAt s a l

/-- No node is its own neighbor at layer `l`. -/
def NoSelfAt (s : Store) (l : Nat) : Prop :=
  ∀ a, a ∉ nbrsAt s a l

/-- Per-layer degree never exceeds the configured cap (spec.md section 3). -/
def DegOk (s : Store) : Prop :=
  ∀ i l, (nbrsAt s i l).length ≤ capAt s.params l

/-- The graph-topology invariant of the layered store: valid adjacency
indices, bidirectionality, no self-loops, and the degree bound. -/
def GraphInv (s : Store) : Prop :=
  (∀ l, NbrBound s l s.nodes.length) ∧ (∀ l, SymAt s l) ∧ (∀ l, NoSelfAt s l) ∧ DegOk s

/-- The entry-point invariant: once a node exists, the entry point is a
valid index whose level is the globally highest populated layer
(spec.md section 3). -/
def EntryInv (s : Store) : Prop :=
  s.nodes ≠ [] → s.entry < s.nodes.length ∧ (nodeAt s s.entry).level = maxLevel s

/-- The store `t` has the same skeleton as `s`: identical parameters,
entry point, node count, and per-node id / vector / level — only adjacency
may differ.  Edge-wiring mutates nothing but adjacency. -/
def Skel (s t : Store) : Prop :=
  t.params = s.params ∧ t.entry = s.entry ∧ t.nodes.length = s.nodes.length ∧
    ∀ j, (nodeAt t j).id = (nodeAt s j).id ∧ (nodeAt t j).vec = (nodeAt s j).vec ∧
      (nodeAt t j).level = (nodeAt s j).level

/-! # Theorems -/

/-! ## Data loaders (C9, C10) -/

theorem loadRecords_length (f : List Nat) (dim : Nat) :
    ∀ k pos, (loadRecords f dim pos k).length = k := by
  intro k
  induction k with
  | zero => intro pos; rfl
  | succ k ih => intro pos; simpa [loadRecords] using ih (pos + 4 + 4 * dim)

theorem loadRecords_getElem (f : List Nat) (dim : Nat) :
    ∀ k pos i, i < k →
      (loadRecords f dim pos k)[i]? =
        some ((f.drop (pos + i * (4 + 4 * dim) + 4)).take (4 * dim)) := by
  intro k
  induction k with
  | zero => intro pos i h; omega
  | succ k ih =>
    intro pos i h
    match i with
    | 0 => simp [loadRecords]
    | i + 1 =>
      have := ih (pos + 4 + 4 * dim) i (by omega)
      rw [loadRecords]
      simpa [show pos + 4 + 4 * dim + i * (4 + 4 * dim) + 4 =
        pos + (i + 1) * (4 + 4 * dim) + 4 by ring] using this

/-- C9 (amended): for a file whose first 4 bytes decode to a positive
dimension, `load_data` sets the vector count to
`fsize / (dim + 1) / 4` reduced modulo `2 ^ 32` (the `(unsigned)` cast at
`101_index_hnsw.cpp:40`; the integer division equals
`fsize / (4 * (dim + 1))`, ignoring a trailing partial record), and reads
exactly that many records of `dim` 4-byte floats, each preceded by a
skipped 4-byte header. -/
theorem load_data_spec (f : List Nat) (h4 : 4 ≤ f.length)
    (hpos : 0 < decodeI32 (f.take 4)) :
    (load_data f).1 = decodeI32 (f.take 4) ∧
    (load_data f).2.1 = (f.length / ((decodeI32 (f.take 4)).toNat + 1) / 4) % 2 ^ 32 ∧
    (load_data f).2.1 = (f.length / (4 * ((decodeI32 (f.take 4)).toNat + 1))) % 2 ^ 32 ∧
    (load_data f).2.2.length = (load_data f).2.1 ∧
    ∀ i < (load_data f).2.1,
      (load_data f).2.2[i]? =
        some ((f.drop (i * (4 + 4 * (decodeI32 (f.take 4)).toNat) + 4)).take
          (4 * (decodeI32 (f.take 4)).toNat)) := by
  refine ⟨rfl, rfl, ?_, ?_, ?_⟩
  · show (f.length / ((decodeI32 (f.take 4)).toNat + 1) / 4) % 2 ^ 32 = _
    rw [Nat.div_div_eq_div_mul, Nat.mul_comm]
  · exact loadRecords_length f _ _ _
  · intro i hi
    simpa using loadRecords_getElem f (decodeI32 (f.take 4)).toNat _ 0 i hi

theorem load_data_num (f : List Nat) :
    (load_data f).2.1 =
      (f.length / ((decodeI32 (f.take 4)).toNat + 1) / 4) % 2 ^ 32 := rfl

/-- Counterexample to C9 as originally stated: on a file of `2 ^ 32 * 8`
bytes with dimension 1 (a file satisfying the claim's precondition), the
program's `(unsigned)` cast wraps the count to 0, so the count is not the
unbounded integer division `fsize / (dim + 1) / 4` (which is `2 ^ 32`). -/
theorem load_data_spec_cex :
    4 ≤ (([1, 0, 0, 0] ++ List.replicate (2 ^ 32 * 8 - 4) 0 : List Nat)).length ∧
    0 < decodeI32 (([1, 0, 0, 0] ++ List.replicate (2 ^ 32 * 8 - 4) 0 : List Nat).take 4) ∧
    (load_data ([1, 0, 0, 0] ++ List.replicate (2 ^ 32 * 8 - 4) 0)).2.1 ≠
      ([1, 0, 0, 0] ++ List.replicate (2 ^ 32 * 8 - 4) 0 : List Nat).length /
        ((decodeI32 (([1, 0, 0, 0] ++ List.replicate (2 ^ 32 * 8 - 4) 0 :
          List Nat).take 4)).toNat + 1) / 4 := by
  have htake : ([1, 0, 0, 0] ++ List.replicate (2 ^ 32 * 8 - 4) 0 : List Nat).take 4 =
      [1, 0, 0, 0] := rfl
  have hlen : ([1, 0, 0, 0] ++ List.replicate (2 ^ 32 * 8 - 4) 0 : List Nat).length =
      2 ^ 32 * 8 := by
    rw [List.length_append, List.length_replicate]
    norm_num
  have hd : ((decodeI32 ([1, 0, 0, 0] : List Nat)).toNat + 1) = 2 := by decide
  refine ⟨by rw [hlen]; norm_num, by rw [htake]; decide, ?_⟩
  rw [load_data_num, htake, hd, hlen]
  norm_num

/-- Closed-form check of C9 on a concrete 10-byte file with dimension 1:
two full records would need 16 bytes, so the count is 1 and the single
record is bytes 4..7. -/
theorem load_data_spec_witness :
    4 ≤ ([1, 0, 0, 0, 9, 1, 0, 0, 0, 7] : List Nat).length ∧
    0 < decodeI32 (([1, 0, 0, 0, 9, 1, 0, 0, 0, 7] : List Nat).take 4) ∧
    (load_data [1, 0, 0, 0, 9, 1, 0, 0, 0, 7]).2.1 = 1 ∧
    (load_data [1, 0, 0, 0, 9, 1, 0, 0, 0, 7]).2.2.length = 1 := by
  have h := load_data_spec [1, 0, 0, 0, 9, 1, 0, 0, 0, 7] (by decide) (by decide)
  exact ⟨by decide, by decide, by rw [h.2.1]; decide, by rw [h.2.2.2.1, h.2.1]; decide⟩

theorem readWords_length : ∀ (k : Nat) (bs : List Nat), (readWords bs k).length = k := by
  intro k
  induction k with
  | zero => intro bs; rfl
  | succ k ih => intro bs; simpa [readWords] using ih (bs.drop 4)

theorem readGtRecords_isSome (f : List Nat) (gn : Nat) :
    ∀ k pos, (readGtRecords f gn pos k).isSome ↔
      ∀ i < k, decodeU32 ((f.drop (pos + i * (4 + 4 * gn))).take 4) = gn := by
  intro k
  induction k with
  | zero => intro pos; simp [readGtRecords]
  | succ k ih =>
    intro pos
    rw [readGtRecords]
    by_cases h : decodeU32 ((f.drop pos).take 4) = gn
    · rw [if_pos h]
      constructor
      · intro hs i hik
        cases ho : readGtRecords f gn (pos + 4 + 4 * gn) k with
        | none => rw [ho] at hs; simp at hs
        | some rest =>
          have hrec := (ih (pos + 4 + 4 * gn)).1 (by rw [ho]; rfl)
          match i, hik with
          | 0, _ => simpa using h
          | i + 1, hik =>
            have := hrec i (by omega)
            simpa [show pos + (i + 1) * (4 + 4 * gn) =
              pos + 4 + 4 * gn + i * (4 + 4 * gn) by ring] using this
      · intro hall
        have hrest : ∀ i < k,
            decodeU32 ((f.drop (pos + 4 + 4 * gn + i * (4 + 4 * gn))).take 4) = gn := by
          intro i hik
          have := hall (i + 1) (by omega)
          simpa [show pos + (i + 1) * (4 + 4 * gn) =
            pos + 4 + 4 * gn + i * (4 + 4 * gn) by ring] using this
        have hrec := (ih (pos + 4 + 4 * gn)).2 hrest
        cases ho : readGtRecords f gn (pos + 4 + 4 * gn) k with
        | none => rw [ho] at hrec; simp at hrec
        | some rest => rfl
    · rw [if_neg h]
      simp only [Option.isSome_none, Bool.false_eq_true, false_iff, not_forall]
      refine ⟨0, ?_⟩
      simpa using h

theorem readGtRecords_some (f : List Nat) (gn : Nat) :
    ∀ k pos res, readGtRecords f gn pos k = some res →
      res.length = k ∧ ∀ r ∈ res, r.length = gn := by
  intro k
  induction k with
  | zero =>
    intro pos res h
    rw [readGtRecords] at h
    cases h
    exact ⟨rfl, by intro r hr; cases hr⟩
  | succ k ih =>
    intro pos res h
    rw [readGtRecords] at h
    by_cases hc : decodeU32 ((f.drop pos).take 4) = gn
    · rw [if_pos hc] at h
      cases ho : readGtRecords f gn (pos + 4 + 4 * gn) k with
      | none => rw [ho] at h; cases h
      | some rest =>
        rw [ho] at h
        cases h
        obtain ⟨hlen, hall⟩ := ih (pos + 4 + 4 * gn) rest ho
        refine ⟨by simpa using hlen, ?_⟩
        intro r hr
        rcases List.mem_cons.1 hr with hr | hr
        · rw [hr]; exact readWords_length gn _
        · exact hall r hr
    · rw [if_neg hc] at h; cases h

/-- C10 (amended): `load_data_groundtruth` succeeds exactly when the file
size check `(unsigned)(fsize / (groundtruth_num + 1) / 4) == query_num`
passes — i.e. the quotient is congruent to `query_num` modulo `2 ^ 32`,
the `(unsigned)` cast at `110_search_hnsw.cpp:74` — and every record's
4-byte header equals `groundtruth_num` (every violation takes the
`exit(-1)` path, modelled as `none`); on success the buffer holds exactly
`query_num × groundtruth_num` entries. -/
theorem load_data_groundtruth_spec (f : List Nat) (gn qn : Nat) :
    ((load_data_groundtruth f gn qn).isSome ↔
      ((f.length / (gn + 1) / 4) % 2 ^ 32 = qn % 2 ^ 32 ∧
       ∀ i < qn, decodeU32 ((f.drop (i * (4 + 4 * gn))).take 4) = gn)) ∧
    ∀ res, load_data_groundtruth f gn qn = some res →
      res.length = qn ∧ (∀ r ∈ res, r.length = gn) ∧ res.flatten.length = qn * gn := by
  constructor
  · constructor
    · intro hs
      rw [load_data_groundtruth] at hs
      by_cases hq : (f.length / (gn + 1) / 4) % 2 ^ 32 = qn % 2 ^ 32
      · rw [if_pos hq] at hs
        refine ⟨hq, ?_⟩
        intro i hi
        have := (readGtRecords_isSome f gn qn 0).1 hs i hi
        simpa using this
      · rw [if_neg hq] at hs; cases hs
    · intro ⟨hq, hall⟩
      rw [load_data_groundtruth, if_pos hq]
      exact (readGtRecords_isSome f gn qn 0).2 (by intro i hi; simpa using hall i hi)
  · intro res h
    rw [load_data_groundtruth] at h
    by_cases hq : (f.length / (gn + 1) / 4) % 2 ^ 32 = qn % 2 ^ 32
    · rw [if_pos hq] at h
      obtain ⟨hlen, hall⟩ := readGtRecords_some f gn qn 0 res h
      refine ⟨hlen, hall, ?_⟩
      rw [List.length_flatten]
      calc (res.map List.length).sum = (res.map (fun _ => gn)).sum := by
            congr 1
            exact List.map_congr_left (by intro r hr; exact hall r hr)
        _ = qn * gn := by
            rw [List.map_const', hlen, List.sum_replicate, smul_eq_mul]
    · rw [if_neg hq] at h; cases h

/-- Counterexample to C10 as originally stated: with `groundtruth_num = 0`
and `query_num = 0` on a file of `2 ^ 32 * 4` bytes, the quotient
`fsize / (gn + 1) / 4 = 2 ^ 32` differs from `query_num = 0`, yet the
`(unsigned)` cast wraps it to 0 and the program succeeds — success is not
equivalent to exact equality of the quotient with `query_num`. -/
theorem load_data_groundtruth_spec_cex :
    (load_data_groundtruth (List.replicate (2 ^ 32 * 4) 0) 0 0).isSome ∧
    (List.replicate (2 ^ 32 * 4) 0 : List Nat).length / (0 + 1) / 4 ≠ 0 := by
  have hcheck : ((List.replicate (2 ^ 32 * 4) 0 : List Nat).length / (0 + 1) / 4) % 2 ^ 32 =
      0 % 2 ^ 32 := by
    rw [List.length_replicate]
    norm_num
  constructor
  · rw [load_data_groundtruth, if_pos hcheck, readGtRecords]
    rfl
  · rw [List.length_replicate]
    norm_num

/-- Closed-form check of C10 on a concrete 8-byte file: one record with
header 1 and one entry, so the call succeeds with a 1×1 buffer. -/
theorem load_data_groundtruth_spec_witness :
    load_data_groundtruth [1, 0, 0, 0, 5, 0, 0, 0] 1 1 = some [[5]] ∧
    ([[5]] : List (List Nat)).length = 1 ∧ ([[5]] : List (List Nat)).flatten.length = 1 * 1 := by
  have h := (load_data_groundtruth_spec [1, 0, 0, 0, 5, 0, 0, 0] 1 1).2 [[5]] (by decide)
  exact ⟨by decide, h.1, h.2.2⟩

/-! ## Builder error contract (C7) -/

/-- C7: `insert` fails with the duplicate-id error when the id is already
present, and (when the id is fresh) fails with the dimension-mismatch
error when the vector length differs from the index dimension; in the
mismatch case the node count is unchanged by the failed call.  When both
violations hold at once the duplicate-id check fires first (spec.md 4.5
lists the duplicate-id failure first). -/
theorem insert_error_spec (s : Store) (newId : Int) (v : List Int) (lNode : Nat) :
    ((∃ nd ∈ s.nodes, nd.id = newId) → insert s newId v lNode = .error .duplicateId) ∧
    ((¬ ∃ nd ∈ s.nodes, nd.id = newId) → v.length ≠ s.params.dim →
      insert s newId v lNode = .error .dimMismatch ∧
      GetNumElements (applyInsert s newId v lNode) = GetNumElements s) := by
  constructor
  · intro h
    rw [insert, if_pos h]
  · intro h hd
    have he : insert s newId v lNode = .error .dimMismatch := by
      rw [insert, if_neg h, if_pos hd]
    refine ⟨he, ?_⟩
    rw [applyInsert, he]

/-- Closed-form check of C7 on a one-node dimension-2 index: re-inserting
id 0 hits the duplicate-id error; inserting a 1-dimensional vector under a
fresh id hits the dimension-mismatch error and leaves the count at 1. -/
theorem insert_error_spec_witness :
    insert { params := { dim := 2, maxDegree := 2, efConstruction := 2, metric := Metric.l2 },
             nodes := [{ id := 0, vec := [1, 2], level := 0, nbrs := [[]] }], entry := 0 }
        0 [3, 4] 0 = .error .duplicateId ∧
    insert { params := { dim := 2, maxDegree := 2, efConstruction := 2, metric := Metric.l2 },
             nodes := [{ id := 0, vec := [1, 2], level := 0, nbrs := [[]] }], entry := 0 }
        1 [3] 0 = .error .dimMismatch ∧
    GetNumElements (applyInsert
      { params := { dim := 2, maxDegree := 2, efConstruction := 2, metric := Metric.l2 },
        nodes := [{ id := 0, vec := [1, 2], level := 0, nbrs := [[]] }], entry := 0 }
      1 [3] 0) = 1 := by
  refine ⟨(insert_error_spec _ 0 [3, 4] 0).1 (by decide), ?_, ?_⟩
  · exact ((insert_error_spec _ 1 [3] 0).2 (by decide) (by decide)).1
  · exact ((insert_error_spec _ 1 [3] 0).2 (by decide) (by decide)).2

/-! ## Neighbor selection policy (C5) -/

theorem selectAux_sublist (s : Store) :
    ∀ (cands : List (Nat × Int)) (quota : Nat) (kept : List (Nat × Int)),
      (selectAux s kept quota cands).Sublist cands := by
  intro cands
  induction cands with
  | nil =>
    intro quota kept
    match quota with
    | 0 => exact List.Sublist.refl _
    | _ + 1 => exact List.Sublist.refl _
  | cons c rest ih =>
    intro quota kept
    obtain ⟨ci, cd⟩ := c
    match quota with
    | 0 => exact List.nil_sublist _
    | q + 1 =>
      rw [selectAux]
      split
      · exact List.Sublist.cons₂ _ (ih q _)
      · exact List.Sublist.cons _ (ih (q + 1) kept)

theorem selectAux_length (s : Store) :
    ∀ (cands : List (Nat × Int)) (quota : Nat) (kept : List (Nat × Int)),
      (selectAux s kept quota cands).length ≤ quota := by
  intro cands
  induction cands with
  | nil =>
    intro quota kept
    match quota with
    | 0 => exact Nat.le_refl 0
    | q + 1 => exact Nat.zero_le _
  | cons c rest ih =>
    intro quota kept
    obtain ⟨ci, cd⟩ := c
    match quota with
    | 0 => exact Nat.le_refl 0
    | q + 1 =>
      rw [selectAux]
      split
      · simpa using Nat.succ_le_succ (ih q _)
      · exact ih (q + 1) kept

theorem selectAux_pairwise (s : Store) :
    ∀ (cands : List (Nat × Int)) (quota : Nat) (kept : List (Nat × Int)),
      kept.Pairwise (fun a b => b.2 < dist s.params.metric (vecOf s b.1) (vecOf s a.1)) →
      (kept ++ selectAux s kept quota cands).Pairwise
        (fun a b => b.2 < dist s.params.metric (vecOf s b.1) (vecOf s a.1)) := by
  intro cands
  induction cands with
  | nil =>
    intro quota kept h
    match quota with
    | 0 => simpa [selectAux] using h
    | q + 1 => simpa [selectAux] using h
  | cons c rest ih =>
    intro quota kept h
    obtain ⟨ci, cd⟩ := c
    match quota with
    | 0 => simpa [selectAux] using h
    | q + 1 =>
      rw [selectAux]
      split
      · rename_i hc
        have hkept' : (kept ++ [(ci, cd)]).Pairwise
            (fun a b => b.2 < dist s.params.metric (vecOf s b.1) (vecOf s a.1)) := by
          rw [List.pairwise_append]
          exact ⟨h, List.pairwise_singleton _ _, by
            intro a ha b hb
            rw [List.mem_singleton] at hb
            subst hb
            exact hc a ha⟩
        have := ih q (kept ++ [(ci, cd)]) hkept'
        simpa [List.append_assoc] using this
      · exact ih (q + 1) kept h

/-- C5: the neighbor selection policy scans the (distance-ordered)
candidates from the closest, keeps at most `max_keep` of them, keeps a
stable subsequence of the candidate sequence (so ties are broken by
candidate insertion order), and every kept candidate is closer to the
target (its recorded distance) than to each candidate kept before it; the
output is a pure function of the candidate list, hence deterministic. -/
theorem selectNeighbors_spec (s : Store) (cands : List (Nat × Int)) (maxKeep : Nat) :
    (selectNeighborsP s cands maxKeep).Sublist cands ∧
    (selectNeighborsP s cands maxKeep).length ≤ maxKeep ∧
    (selectNeighborsP s cands maxKeep).Pairwise
      (fun a b => b.2 < dist s.params.metric (vecOf s b.1) (vecOf s a.1)) ∧
    selectNeighbors s cands maxKeep = (selectNeighborsP s cands maxKeep).map Prod.fst := by
  refine ⟨selectAux_sublist s cands maxKeep [], selectAux_length s cands maxKeep [], ?_, rfl⟩
  simpa using selectAux_pairwise s cands maxKeep [] (List.Pairwise.nil)

/-! ## Search queue lemmas -/

theorem foldl_inv {β : Type _} {α : Type _} (P : β → Prop) (f : β → α → β) :
    ∀ (l : List α) (b : β), P b → (∀ x ∈ l, ∀ b', P b' → P (f b' x)) → P (l.foldl f b) := by
  intro l
  induction l with
  | nil => intro b hb _; exact hb
  | cons x xs ih =>
    intro b hb hstep
    exact ih (f b x) (hstep x (List.mem_cons_self x xs) b hb)
      (fun y hy b' hb' => hstep y (List.mem_cons_of_mem x hy) b' hb')

theorem insertSorted_perm (p : Nat × Int) :
    ∀ l : List (Nat × Int), (insertSorted l p).Perm (p :: l) := by
  intro l
  induction l with
  | nil => exact List.Perm.refl _
  | cons x xs ih =>
    rw [insertSorted]
    split
    · exact List.Perm.refl _
    · exact (List.Perm.cons x ih).trans (List.Perm.swap p x xs)

theorem mem_insertSorted (p x : Nat × Int) (l : List (Nat × Int)) :
    x ∈ insertSorted l p ↔ x = p ∨ x ∈ l := by
  rw [(insertSorted_perm p l).mem_iff, List.mem_cons]

theorem insertSorted_sorted (p : Nat × Int) :
    ∀ l : List (Nat × Int), SortedD l → SortedD (insertSorted l p) := by
  intro l
  induction l with
  | nil => exact fun _ => List.pairwise_singleton _ _
  | cons x xs ih =>
    intro h
    rw [SortedD, List.pairwise_cons] at h
    obtain ⟨hx, hxs⟩ := h
    rw [insertSorted]
    split
    · rename_i hlt
      rw [SortedD, List.pairwise_cons]
      refine ⟨?_, List.Pairwise.cons hx hxs⟩
      intro b hb
      rcases List.mem_cons.1 hb with rfl | hb
      · exact le_of_lt hlt
      · exact le_trans (le_of_lt hlt) (hx b hb)
    · rename_i hge
      rw [SortedD, List.pairwise_cons]
      constructor
      · intro b hb
        rcases (mem_insertSorted p b xs).1 hb with rfl | hb
        · exact le_of_not_lt hge
        · exact hx b hb
      · exact ih hxs

theorem searchGo_sorted (s : Store) (q : List Int) (layer ef : Nat) :
    ∀ (fuel : Nat) (cand result : List (Nat × Int)) (vis : List Nat),
      SortedD result → SortedD (searchGo s q layer ef fuel cand result vis) := by
  intro fuel
  induction fuel with
  | zero => intro cand result vis h; exact h
  | succ fuel ih =>
    intro cand result vis h
    match cand with
    | [] => exact h
    | (c, dc) :: rest =>
      rw [searchGo]
      split
      · exact h
      · apply ih
        refine foldl_inv (fun st => SortedD st.2.1) _ _ (rest, result, vis) h ?_
        intro nb _ st hst
        rw [expandOne]
        split
        · exact hst
        · exact List.Pairwise.sublist (List.take_sublist _ _) (insertSorted_sorted _ _ hst)

theorem searchLayer_sorted (s : Store) (q : List Int) (eps : List Nat) (ef layer : Nat) :
    SortedD (searchLayer s q eps ef layer) := by
  rw [searchLayer]
  have hent : SortedD (eps.foldl
      (fun acc e => insertSorted acc (e, dist s.params.metric q (vecOf s e))) []) := by
    refine foldl_inv SortedD _ eps [] List.Pairwise.nil ?_
    intro e _ acc hacc
    exact insertSorted_sorted _ _ hacc
  exact searchGo_sorted s q layer ef _ _ _ _
    (List.Pairwise.sublist (List.take_sublist _ _) hent)

/-! ## KnnSearch output contract (C6) -/

/-- C6: on a non-empty index, `KnnSearch` succeeds and returns the
layer-0 search result — reached by the `ef = 1` descent from the stored
entry point through the layers above 0 — truncated to `k` and mapped to
external ids: an ordered sequence of (id, distance) pairs of length at
most `k`, sorted ascending by distance. -/
theorem knnsearch_spec (s : Store) (q : List Int) (k efSearch : Nat)
    (hne : s.nodes ≠ []) (hk : 1 ≤ k) (hef : k ≤ efSearch) :
    ∃ r, KnnSearch s q k efSearch = .ok r ∧
      r.length ≤ k ∧
      r.Pairwise (fun a b => a.2 ≤ b.2) ∧
      r = ((searchLayer s q
            [descendSteps s q s.entry (nodeAt s s.entry).level (nodeAt s s.entry).level]
            efSearch 0).take k).map (fun p => ((nodeAt s p.1).id, p.2)) := by
  have hemp : s.nodes.isEmpty = false := by
    cases hn : s.nodes with
    | nil => exact absurd hn hne
    | cons a l => rfl
  refine ⟨_, ?_, ?_, ?_, rfl⟩
  · rw [KnnSearch, hemp]
    simp
  · rw [List.length_map]
    exact le_trans (List.length_take_le _ _) (le_refl _)
  · refine List.Pairwise.map _ (fun a b h => h) ?_
    exact List.Pairwise.sublist (List.take_sublist _ _) (searchLayer_sorted s q _ efSearch 0)

/-- Closed-form check of C6 on a one-node index: searching the node's own
vector with `k = ef_search = 1` returns exactly that node at distance 0. -/
theorem knnsearch_spec_witness :
    KnnSearch { params := { dim := 1, maxDegree := 1, efConstruction := 1, metric := Metric.l2 },
                nodes := [{ id := 7, vec := [0], level := 0, nbrs := [[]] }], entry := 0 }
      [0] 1 1 = .ok [((7 : Int), (0 : Int))] ∧
    ([((7 : Int), (0 : Int))] : List (Int × Int)).length ≤ 1 := by
  obtain ⟨r, h1, h2, h3, h4⟩ := knnsearch_spec
    { params := { dim := 1, maxDegree := 1, efConstruction := 1, metric := Metric.l2 },
      nodes := [{ id := 7, vec := [0], level := 0, nbrs := [[]] }], entry := 0 }
    [0] 1 1 (by decide) (by decide) (by decide)
  have hr : r = [((7 : Int), (0 : Int))] := by rw [h4]; decide
  exact ⟨hr ▸ h1, by decide⟩

/-! ## Serializer: completeness (decoding an encoding, with any suffix) -/

theorem readNat0_compl (n : Nat) (t : List Int) :
    readNat0 ((n : Int) :: t) = some (n, t) := by
  rw [readNat0, if_pos (by exact Int.natCast_nonneg n)]
  simp

theorem readNat0_compl' (n : Nat) (t : List Int) :
    readNat0 (Int.ofNat n :: t) = some (n, t) :=
  readNat0_compl n t

theorem readToks_compl : ∀ (v t : List Int), readToks v.length (v ++ t) = some (v, t) := by
  intro v
  induction v with
  | nil => intro t; rfl
  | cons x xs ih =>
    intro t
    simp [readToks, readTok, ih t]

theorem readNats_compl : ∀ (v : List Nat) (t : List Int),
    readNats v.length (v.map Int.ofNat ++ t) = some (v, t) := by
  intro v
  induction v with
  | nil => intro t; rfl
  | cons x xs ih =>
    intro t
    simp [readNats, readNat0_compl, ih t]

theorem readLayer_compl (ls : List Nat) (t : List Int) :
    readLayer (encodeLayer ls ++ t) = some (ls, t) := by
  simp [readLayer, encodeLayer, readNat0_compl, readNats_compl]

theorem readLayers_compl : ∀ (lss : List (List Nat)) (t : List Int),
    readLayers lss.length ((lss.map encodeLayer).flatten ++ t) = some (lss, t) := by
  intro lss
  induction lss with
  | nil => intro t; rfl
  | cons ls rest ih =>
    intro t
    simp [readLayers, List.append_assoc, readLayer_compl, ih t]

theorem readNode_compl (nd : Node) (t : List Int) :
    readNode (encodeNode nd ++ t) = some (nd, t) := by
  simp [readNode, encodeNode, readTok, readNat0_compl, List.append_assoc, readToks_compl,
    readLayers_compl]

theorem readNodes_compl : ∀ (nds : List Node) (t : List Int),
    readNodes nds.length ((nds.map encodeNode).flatten ++ t) = some (nds, t) := by
  intro nds
  induction nds with
  | nil => intro t; rfl
  | cons nd rest ih =>
    intro t
    simp [readNodes, List.append_assoc, readNode_compl, ih t]

theorem decodeMetric_encodeMetric (m : Metric) : decodeMetric (encodeMetric m) = some m := by
  cases m <;> rfl

theorem readStore_compl (s : Store) (t : List Int) :
    readStore s.params (serialize s ++ t) = some (s, t) := by
  simp [readStore, serialize, readTok, readNat0_compl, decodeMetric_encodeMetric,
    List.append_assoc, readNodes_compl]

/-! ## Serializer: soundness (a successful decode consumed an encoding) -/

theorem readNat0_sound (l : List Int) (n : Nat) (r : List Int)
    (h : readNat0 l = some (n, r)) : l = Int.ofNat n :: r := by
  match l with
  | [] => cases h
  | t :: rest =>
    rw [readNat0] at h
    by_cases h0 : (0 : Int) ≤ t
    · rw [if_pos h0] at h
      cases h
      simp [Int.toNat_of_nonneg h0]
    · rw [if_neg h0] at h; cases h

theorem readToks_sound : ∀ (n : Nat) (l v r : List Int),
    readToks n l = some (v, r) → l = v ++ r ∧ v.length = n := by
  intro n
  induction n with
  | zero =>
    intro l v r h
    rw [readToks] at h
    cases h
    exact ⟨rfl, rfl⟩
  | succ n ih =>
    intro l v r h
    match l with
    | [] => simp [readToks, readTok] at h
    | x :: rest =>
      simp only [readToks, readTok] at h
      cases hr : readToks n rest with
      | none => simp only [hr] at h; cases h
      | some p =>
        obtain ⟨v', r'⟩ := p
        simp only [hr] at h
        cases h
        obtain ⟨h1, h2⟩ := ih rest v' _ hr
        exact ⟨by rw [List.cons_append, h1], by simp [h2]⟩

theorem readNats_sound : ∀ (n : Nat) (l : List Int) (v : List Nat) (r : List Int),
    readNats n l = some (v, r) → l = v.map Int.ofNat ++ r ∧ v.length = n := by
  intro n
  induction n with
  | zero =>
    intro l v r h
    rw [readNats] at h
    cases h
    exact ⟨rfl, rfl⟩
  | succ n ih =>
    intro l v r h
    rw [readNats] at h
    cases h0 : readNat0 l with
    | none => simp only [h0] at h; cases h
    | some p =>
      obtain ⟨x, rest⟩ := p
      simp only [h0] at h
      cases hr : readNats n rest with
      | none => simp only [hr] at h; cases h
      | some p' =>
        obtain ⟨v', r'⟩ := p'
        simp only [hr] at h
        cases h
        obtain ⟨h1, h2⟩ := ih rest v' _ hr
        refine ⟨?_, by simp [h2]⟩
        rw [readNat0_sound l x rest h0, List.map_cons, List.cons_append, h1]

theorem readLayer_sound (l : List Int) (ls : List Nat) (r : List Int)
    (h : readLayer l = some (ls, r)) : l = encodeLayer ls ++ r := by
  rw [readLayer] at h
  cases h0 : readNat0 l with
  | none => simp only [h0] at h; cases h
  | some p =>
    obtain ⟨len, l1⟩ := p
    simp only [h0] at h
    obtain ⟨h1, h2⟩ := readNats_sound len l1 ls _ h
    rw [readNat0_sound l len l1 h0, h1, encodeLayer, h2, List.cons_append]

theorem readLayers_sound : ∀ (k : Nat) (l : List Int) (lss : List (List Nat)) (r : List Int),
    readLayers k l = some (lss, r) →
      l = (lss.map encodeLayer).flatten ++ r ∧ lss.length = k := by
  intro k
  induction k with
  | zero =>
    intro l lss r h
    rw [readLayers] at h
    cases h
    exact ⟨rfl, rfl⟩
  | succ k ih =>
    intro l lss r h
    rw [readLayers] at h
    cases h0 : readLayer l with
    | none => simp only [h0] at h; cases h
    | some p =>
      obtain ⟨ls, l1⟩ := p
      simp only [h0] at h
      cases hr : readLayers k l1 with
      | none => simp only [hr] at h; cases h
      | some p' =>
        obtain ⟨lss', l2⟩ := p'
        simp only [hr] at h
        cases h
        obtain ⟨h1, h2⟩ := ih l1 lss' _ hr
        refine ⟨?_, by simp [h2]⟩
        rw [readLayer_sound l ls l1 h0, h1, List.map_cons, List.flatten_cons, List.append_assoc]

theorem readNode_sound (l : List Int) (nd : Node) (r : List Int)
    (h : readNode l = some (nd, r)) : l = encodeNode nd ++ r := by
  match l with
  | [] => simp [readNode, readTok] at h
  | ndId :: l1 =>
    simp only [readNode, readTok] at h
    cases h2 : readNat0 l1 with
    | none => simp only [h2] at h; cases h
    | some p2 =>
      obtain ⟨lvl, l2⟩ := p2
      simp only [h2] at h
      cases h3 : readNat0 l2 with
      | none => simp only [h3] at h; cases h
      | some p3 =>
        obtain ⟨vlen, l3⟩ := p3
        simp only [h3] at h
        cases h4 : readToks vlen l3 with
        | none => simp only [h4] at h; cases h
        | some p4 =>
          obtain ⟨v, l4⟩ := p4
          simp only [h4] at h
          cases h5 : readNat0 l4 with
          | none => simp only [h5] at h; cases h
          | some p5 =>
            obtain ⟨nlay, l5⟩ := p5
            simp only [h5] at h
            cases h6 : readLayers nlay l5 with
            | none => simp only [h6] at h; cases h
            | some p6 =>
              obtain ⟨nbrs, l6⟩ := p6
              simp only [h6] at h
              cases h
              obtain ⟨hv, hvlen⟩ := readToks_sound vlen l3 _ _ h4
              obtain ⟨hn, hnlen⟩ := readLayers_sound nlay l5 _ _ h6
              rw [readNat0_sound l1 lvl l2 h2, readNat0_sound l2 vlen l3 h3]
              rw [encodeNode]
              simp only [List.cons_append, List.append_assoc]
              rw [← hvlen, hv]
              rw [readNat0_sound l4 nlay l5 h5, ← hnlen, hn]

theorem readNodes_sound : ∀ (c : Nat) (l : List Int) (nds : List Node) (r : List Int),
    readNodes c l = some (nds, r) →
      l = (nds.map encodeNode).flatten ++ r ∧ nds.length = c := by
  intro c
  induction c with
  | zero =>
    intro l nds r h
    rw [readNodes] at h
    cases h
    exact ⟨rfl, rfl⟩
  | succ c ih =>
    intro l nds r h
    rw [readNodes] at h
    cases h0 : readNode l with
    | none => simp only [h0] at h; cases h
    | some p =>
      obtain ⟨nd, l1⟩ := p
      simp only [h0] at h
      cases hr : readNodes c l1 with
      | none => simp only [hr] at h; cases h
      | some p' =>
        obtain ⟨nds', l2⟩ := p'
        simp only [hr] at h
        cases h
        obtain ⟨h1, h2⟩ := ih l1 nds' _ hr
        refine ⟨?_, by simp [h2]⟩
        rw [readNode_sound l nd l1 h0, h1, List.map_cons, List.flatten_cons, List.append_assoc]

theorem decodeMetric_sound (t : Int) (m : Metric) (h : decodeMetric t = some m) :
    encodeMetric m = t := by
  rw [decodeMetric] at h
  by_cases h0 : t = 0
  · rw [if_pos h0] at h; cases h; rw [h0]; rfl
  · rw [if_neg h0] at h
    by_cases h1 : t = 1
    · rw [if_pos h1] at h; cases h; rw [h1]; rfl
    · rw [if_neg h1] at h
      by_cases h2 : t = 2
      · rw [if_pos h2] at h; cases h; rw [h2]; rfl
      · rw [if_neg h2] at h; cases h

theorem readStore_sound (cfg : HnswParams) (l : List Int) (st : Store) (r : List Int)
    (h : readStore cfg l = some (st, r)) : l = serialize st ++ r ∧ st.params = cfg := by
  match l with
  | [] => simp [readStore, readTok] at h
  | m :: l1 =>
    simp only [readStore, readTok] at h
    by_cases hm : m = MAGIC
    · rw [if_pos hm] at h
      match l1 with
      | [] => simp [readTok] at h
      | ver :: l2 =>
        simp only [readTok] at h
        by_cases hv : ver = VERSION
        · rw [if_pos hv] at h
          cases h3 : readNat0 l2 with
          | none => simp only [h3] at h; cases h
          | some p3 =>
            obtain ⟨d, l3⟩ := p3
            simp only [h3] at h
            by_cases hd : d = cfg.dim
            · rw [if_pos hd] at h
              match hl3 : l3 with
              | [] => simp [readTok] at h
              | mt :: l4 =>
                simp only [readTok] at h
                cases hmet : decodeMetric mt with
                | none => simp only [hmet] at h; cases h
                | some met =>
                  simp only [hmet] at h
                  by_cases hmc : met = cfg.metric
                  · rw [if_pos hmc] at h
                    cases h5 : readNat0 l4 with
                    | none => simp only [h5] at h; cases h
                    | some p5 =>
                      obtain ⟨count, l5⟩ := p5
                      simp only [h5] at h
                      cases h6 : readNodes count l5 with
                      | none => simp only [h6] at h; cases h
                      | some p6 =>
                        obtain ⟨nds, l6⟩ := p6
                        simp only [h6] at h
                        cases h7 : readNat0 l6 with
                        | none => simp only [h7] at h; cases h
                        | some p7 =>
                          obtain ⟨ent, l7⟩ := p7
                          simp only [h7] at h
                          cases h
                          obtain ⟨hn, hc⟩ := readNodes_sound count l5 _ _ h6
                          refine ⟨?_, rfl⟩
                          rw [serialize]
                          simp only [List.cons_append, List.append_assoc, List.nil_append]
                          rw [hm, hv, readNat0_sound l2 d _ h3, hd, ← hmc,
                            ← decodeMetric_sound mt met hmet]
                          rw [readNat0_sound l4 count l5 h5, hc, hn]
                          rw [readNat0_sound l6 ent _ h7]
                  · rw [if_neg hmc] at h; cases h
            · rw [if_neg hd] at h; cases h
        · rw [if_neg hv] at h; cases h
    · rw [if_neg hm] at h; cases h

/-! ## Round-trip and corruption theorems (C1, C8) -/

theorem deserialize_serialize (s : Store) :
    deserialize s.params (serialize s) = .ok s := by
  have h := readStore_compl s []
  rw [List.append_nil] at h
  rw [deserialize, h]

/-- C1: deserializing the byte stream produced by serializing an index
reconstructs the index exactly, so `GetNumElements`, every per-node
vector, and every `KnnSearch` output (any query, `k`, `ef_search`)
coincide with the original's. -/
theorem serialize_roundtrip_spec (s : Store) :
    ∃ s', deserialize s.params (serialize s) = .ok s' ∧
      GetNumElements s' = GetNumElements s ∧
      (∀ i, vecOf s' i = vecOf s i) ∧
      (∀ q k efSearch, KnnSearch s' q k efSearch = KnnSearch s q k efSearch) := by
  exact ⟨s, deserialize_serialize s, rfl, fun _ => rfl, fun _ _ _ => rfl⟩

/-- C8: deserialization is total and atomic — every stream either decodes
to a complete store or fails with the corruption error (never a partial
store); every strict truncation of a serialized index (in particular one
cut inside a region a length field promised) fails with the corruption
error, and so does a stream whose decoded dimension disagrees with the
configured dimension. -/
theorem deserialize_corruption_spec (s : Store) (cfg : HnswParams) :
    (∀ n < (serialize s).length,
      deserialize s.params ((serialize s).take n) = .error .corruption) ∧
    (cfg.dim ≠ s.params.dim → deserialize cfg (serialize s) = .error .corruption) ∧
    (∀ l : List Int, (∃ st, deserialize cfg l = .ok st) ∨
      deserialize cfg l = .error .corruption) := by
  refine ⟨?_, ?_, ?_⟩
  · intro n hn
    rw [deserialize]
    cases h : readStore s.params ((serialize s).take n) with
    | none => rfl
    | some p =>
      obtain ⟨st, r⟩ := p
      obtain ⟨hpre, hparams⟩ := readStore_sound s.params _ st r h
      exfalso
      have hfull := readStore_compl st (r ++ (serialize s).drop n)
      rw [hparams, ← List.append_assoc, ← hpre, List.take_append_drop] at hfull
      have hrt := readStore_compl s []
      rw [List.append_nil] at hrt
      rw [hrt] at hfull
      have h2 := Option.some.inj hfull
      have h3 := congrArg Prod.snd h2
      have hdrop : (serialize s).drop n = [] := by
        cases hr2 : r ++ (serialize s).drop n with
        | nil => exact (List.append_eq_nil.1 hr2).2
        | cons a l2 => rw [hr2] at h3; cases h3
      have := List.drop_eq_nil_iff.1 hdrop
      omega
  · intro hd
    have hne : s.params.dim ≠ cfg.dim := fun hh => hd hh.symm
    simp [deserialize, serialize, readStore, readTok, readNat0_compl, hne]
  · intro l
    rw [deserialize]
    cases h : readStore cfg l with
    | none => exact Or.inr rfl
    | some p => exact Or.inl ⟨p.1, rfl⟩

/-- Closed-form check of C8 on a concrete one-node index: truncating its
serialization to 3 tokens is a corruption error, and deserializing the
full stream against a dimension-2 configuration is a corruption error. -/
theorem deserialize_corruption_spec_witness :
    deserialize
      { dim := 1, maxDegree := 1, efConstruction := 1, metric := Metric.l2 }
      ((serialize { params := { dim := 1, maxDegree := 1, efConstruction := 1, metric := Metric.l2 },
                    nodes := [{ id := 7, vec := [0], level := 0, nbrs := [[]] }],
                    entry := 0 }).take 3) = .error .corruption ∧
    deserialize
      { dim := 2, maxDegree := 1, efConstruction := 1, metric := Metric.l2 }
      (serialize { params := { dim := 1, maxDegree := 1, efConstruction := 1, metric := Metric.l2 },
                   nodes := [{ id := 7, vec := [0], level := 0, nbrs := [[]] }],
                   entry := 0 }) = .error .corruption := by
  constructor
  · exact (deserialize_corruption_spec
      { params := { dim := 1, maxDegree := 1, efConstruction := 1, metric := Metric.l2 },
        nodes := [{ id := 7, vec := [0], level := 0, nbrs := [[]] }], entry := 0 }
      { dim := 2, maxDegree := 1, efConstruction := 1, metric := Metric.l2 }).1 3 (by decide)
  · exact (deserialize_corruption_spec
      { params := { dim := 1, maxDegree := 1, efConstruction := 1, metric := Metric.l2 },
        nodes := [{ id := 7, vec := [0], level := 0, nbrs := [[]] }], entry := 0 }
      { dim := 2, maxDegree := 1, efConstruction := 1, metric := Metric.l2 }).2.1 (by decide)

/-! ## Store update lemmas -/

theorem listModify_length {α : Type _} (f : α → α) :
    ∀ (i : Nat) (l : List α), (listModify f i l).length = l.length := by
  intro i
  induction i with
  | zero => intro l; cases l <;> rfl
  | succ i ih =>
    intro l
    cases l with
    | nil => rfl
    | cons x xs => simpa [listModify] using ih xs

theorem listModify_oob {α : Type _} (f : α → α) :
    ∀ (i : Nat) (l : List α), l.length ≤ i → listModify f i l = l := by
  intro i
  induction i with
  | zero =>
    intro l h
    cases l with
    | nil => rfl
    | cons x xs => simp at h
  | succ i ih =>
    intro l h
    cases l with
    | nil => rfl
    | cons x xs =>
      rw [listModify, ih xs (by simpa using h)]

theorem getD_listModify_self {α : Type _} (f : α → α) (d : α) :
    ∀ (i : Nat) (l : List α), i < l.length →
      (listModify f i l).getD i d = f (l.getD i d) := by
  intro i
  induction i with
  | zero =>
    intro l h
    cases l with
    | nil => simp at h
    | cons x xs => rfl
  | succ i ih =>
    intro l h
    cases l with
    | nil => simp at h
    | cons x xs => simpa [listModify] using ih xs (by simpa using h)

theorem getD_listModify_ne {α : Type _} (f : α → α) (d : α) :
    ∀ (i j : Nat) (l : List α), i ≠ j →
      (listModify f i l).getD j d = l.getD j d := by
  intro i
  induction i with
  | zero =>
    intro j l h
    cases l with
    | nil => rfl
    | cons x xs =>
      cases j with
      | zero => exact absurd rfl h
      | succ j => rfl
  | succ i ih =>
    intro j l h
    cases l with
    | nil => rfl
    | cons x xs =>
      cases j with
      | zero => rfl
      | succ j => simpa [listModify] using ih j xs (by omega)

theorem getD_setLayerList_self (v : List Nat) :
    ∀ (layer : Nat) (ls : List (List Nat)), (setLayerList ls layer v).getD layer [] = v := by
  intro layer
  induction layer with
  | zero =>
    intro ls
    cases ls <;> rfl
  | succ layer ih =>
    intro ls
    cases ls with
    | nil => simpa [setLayerList] using ih []
    | cons x xs => simpa [setLayerList] using ih xs

theorem getD_setLayerList_ne (v : List Nat) :
    ∀ (layer l' : Nat) (ls : List (List Nat)), l' ≠ layer →
      (setLayerList ls layer v).getD l' [] = ls.getD l' [] := by
  intro layer
  induction layer with
  | zero =>
    intro l' ls h
    cases ls with
    | nil =>
      cases l' with
      | zero => exact absurd rfl h
      | succ l' => simp [setLayerList]
    | cons x xs =>
      cases l' with
      | zero => exact absurd rfl h
      | succ l' => rfl
  | succ layer ih =>
    intro l' ls h
    cases ls with
    | nil =>
      cases l' with
      | zero => rfl
      | succ l' => simpa [setLayerList] using ih l' [] (by omega)
    | cons x xs =>
      cases l' with
      | zero => rfl
      | succ l' => simpa [setLayerList] using ih l' xs (by omega)

theorem length_setNbrs (s : Store) (i l : Nat) (v : List Nat) :
    (setNbrs s i l v).nodes.length = s.nodes.length :=
  listModify_length _ i s.nodes

theorem params_setNbrs (s : Store) (i l : Nat) (v : List Nat) :
    (setNbrs s i l v).params = s.params := rfl

theorem entry_setNbrs (s : Store) (i l : Nat) (v : List Nat) :
    (setNbrs s i l v).entry = s.entry := rfl

theorem nodeAt_setNbrs_ne (s : Store) (i l : Nat) (v : List Nat) (j : Nat) (h : i ≠ j) :
    nodeAt (setNbrs s i l v) j = nodeAt s j := by
  rw [nodeAt, nodeAt, setNbrs]
  exact getD_listModify_ne _ _ i j s.nodes h

theorem nodeAt_setNbrs_self (s : Store) (i l : Nat) (v : List Nat) (h : i < s.nodes.length) :
    nodeAt (setNbrs s i l v) i =
      { nodeAt s i with nbrs := setLayerList (nodeAt s i).nbrs l v } := by
  rw [nodeAt, nodeAt, setNbrs]
  exact getD_listModify_self _ _ i s.nodes h

theorem setNbrs_oob (s : Store) (i l : Nat) (v : List Nat) (h : s.nodes.length ≤ i) :
    setNbrs s i l v = s := by
  rw [setNbrs, listModify_oob _ i s.nodes h]

theorem nbrsAt_setNbrs_self (s : Store) (i l : Nat) (v : List Nat) (h : i < s.nodes.length) :
    nbrsAt (setNbrs s i l v) i l = v := by
  rw [nbrsAt, nodeAt_setNbrs_self s i l v h]
  exact getD_setLayerList_self v l (nodeAt s i).nbrs

theorem nbrsAt_setNbrs_ne_node (s : Store) (i l : Nat) (v : List Nat) (j l' : Nat) (h : j ≠ i) :
    nbrsAt (setNbrs s i l v) j l' = nbrsAt s j l' := by
  rw [nbrsAt, nbrsAt, nodeAt_setNbrs_ne s i l v j (fun hh => h hh.symm)]

theorem nbrsAt_setNbrs_ne_layer (s : Store) (i l : Nat) (v : List Nat) (j l' : Nat)
    (h : l' ≠ l) : nbrsAt (setNbrs s i l v) j l' = nbrsAt s j l' := by
  by_cases hij : j = i
  · subst hij
    by_cases hlen : j < s.nodes.length
    · rw [nbrsAt, nodeAt_setNbrs_self s j l v hlen, nbrsAt]
      exact getD_setLayerList_ne v l l' (nodeAt s j).nbrs h
    · rw [setNbrs_oob s j l v (by omega)]
  · rw [nbrsAt_setNbrs_ne_node s i l v j l' hij]

theorem nbrsAt_oob (s : Store) (j l : Nat) (h : s.nodes.length ≤ j) :
    nbrsAt s j l = [] := by
  rw [nbrsAt, nodeAt, List.getD_eq_default s.nodes _ h]
  cases l <;> rfl

theorem vecOf_setNbrs (s : Store) (i l : Nat) (v : List Nat) (j : Nat) :
    vecOf (setNbrs s i l v) j = vecOf s j := by
  by_cases hij : i = j
  · subst hij
    by_cases hlen : i < s.nodes.length
    · rw [vecOf, vecOf, nodeAt_setNbrs_self s i l v hlen]
    · rw [setNbrs_oob s i l v (by omega)]
  · rw [vecOf, vecOf, nodeAt_setNbrs_ne s i l v j hij]

theorem Skel.refl (s : Store) : Skel s s :=
  ⟨rfl, rfl, rfl, fun _ => ⟨rfl, rfl, rfl⟩⟩

theorem Skel.trans {s t u : Store} (h1 : Skel s t) (h2 : Skel t u) : Skel s u := by
  obtain ⟨p1, e1, n1, f1⟩ := h1
  obtain ⟨p2, e2, n2, f2⟩ := h2
  refine ⟨p2.trans p1, e2.trans e1, n2.trans n1, fun j => ?_⟩
  obtain ⟨a1, b1, c1⟩ := f1 j
  obtain ⟨a2, b2, c2⟩ := f2 j
  exact ⟨a2.trans a1, b2.trans b1, c2.trans c1⟩

theorem Skel.setNbrs (s : Store) (i l : Nat) (v : List Nat) : Skel s (setNbrs s i l v) := by
  refine ⟨rfl, rfl, length_setNbrs s i l v, fun j => ?_⟩
  by_cases hij : i = j
  · subst hij
    by_cases hlen : i < s.nodes.length
    · rw [nodeAt_setNbrs_self s i l v hlen]
      exact ⟨rfl, rfl, rfl⟩
    · rw [setNbrs_oob s i l v (by omega)]
      exact ⟨rfl, rfl, rfl⟩
  · rw [nodeAt_setNbrs_ne s i l v j hij]
    exact ⟨rfl, rfl, rfl⟩

theorem getD_replicate_nil :
    ∀ (k i : Nat), (List.replicate k ([] : List Nat)).getD i [] = [] := by
  intro k
  induction k with
  | zero => intro i; cases i <;> rfl
  | succ k ih =>
    intro i
    cases i with
    | zero => rfl
    | succ i => exact ih i

theorem nodeAt_append_lt (s : Store) (nd : Node) (j : Nat) (h : j < s.nodes.length) :
    nodeAt { s with nodes := s.nodes ++ [nd] } j = nodeAt s j := by
  rw [nodeAt, nodeAt]
  simp only []
  rw [List.getD, List.getD, List.get?_append h]

theorem nodeAt_append_self (s : Store) (nd : Node) :
    nodeAt { s with nodes := s.nodes ++ [nd] } s.nodes.length = nd := by
  rw [nodeAt]
  simp only []
  rw [List.getD, List.get?_append_right (le_refl _)]
  simp

/-! ## Search result validity -/

theorem searchGo_mem_lt (s : Store) (q : List Int) (layer ef B : Nat)
    (HB : ∀ i, ∀ j ∈ nbrsAt s i layer, j < B) :
    ∀ (fuel : Nat) (cand result : List (Nat × Int)) (vis : List Nat),
      (∀ p ∈ cand, p.1 < B) → (∀ p ∈ result, p.1 < B) →
      ∀ p ∈ searchGo s q layer ef fuel cand result vis, p.1 < B := by
  intro fuel
  induction fuel with
  | zero => intro cand result vis _ hr p hp; exact hr p hp
  | succ fuel ih =>
    intro cand result vis hc hr
    match cand with
    | [] => exact hr
    | (c, dc) :: rest =>
      rw [searchGo]
      split
      · exact hr
      · have hfold : (∀ p ∈ ((nbrsAt s c layer).foldl (expandOne s q ef)
            (rest, result, vis)).1, p.1 < B) ∧
            (∀ p ∈ ((nbrsAt s c layer).foldl (expandOne s q ef)
              (rest, result, vis)).2.1, p.1 < B) := by
          have := foldl_inv
            (fun st : List (Nat × Int) × List (Nat × Int) × List Nat =>
              (∀ p ∈ st.1, p.1 < B) ∧ (∀ p ∈ st.2.1, p.1 < B))
            (expandOne s q ef) (nbrsAt s c layer) (rest, result, vis)
            ⟨fun p hp => hc p (List.mem_cons_of_mem _ hp), hr⟩ ?_
          · exact this
          intro nb hnb st hst
          rw [expandOne]
          split
          · exact hst
          · constructor
            · intro p hp
              rcases (mem_insertSorted _ p st.1).1 hp with rfl | hp
              · exact HB c nb hnb
              · exact hst.1 p hp
            · intro p hp
              have hp' := (List.take_sublist ef _).subset hp
              rcases (mem_insertSorted _ p st.2.1).1 hp' with rfl | hp'
              · exact HB c nb hnb
              · exact hst.2 p hp'
        exact ih _ _ _ hfold.1 hfold.2

theorem searchLayer_mem_lt (s : Store) (q : List Int) (eps : List Nat) (ef layer B : Nat)
    (HB : ∀ i, ∀ j ∈ nbrsAt s i layer, j < B) (heps : ∀ e ∈ eps, e < B) :
    ∀ p ∈ searchLayer s q eps ef layer, p.1 < B := by
  rw [searchLayer]
  have hent : ∀ p ∈ eps.foldl
      (fun acc e => insertSorted acc (e, dist s.params.metric q (vecOf s e))) [], p.1 < B := by
    refine foldl_inv (fun acc : List (Nat × Int) => ∀ p ∈ acc, p.1 < B) _ eps []
      (by intro p hp; cases hp) ?_
    intro e he acc hacc p hp
    rcases (mem_insertSorted _ p acc).1 hp with rfl | hp
    · exact heps e he
    · exact hacc p hp
  exact searchGo_mem_lt s q layer ef B HB _ _ _ _ hent
    (fun p hp => hent p ((List.take_sublist ef _).subset hp))

theorem bestEntry_lt (s : Store) (q : List Int) (ep l B : Nat)
    (HB : ∀ i, ∀ j ∈ nbrsAt s i l, j < B) (hep : ep < B) :
    bestEntry s q ep l < B := by
  rw [bestEntry]
  cases hh : (searchLayer s q [ep] 1 l).head? with
  | none => simpa using hep
  | some p =>
    have hp : p ∈ searchLayer s q [ep] 1 l := by
      have hcons := List.eq_cons_of_mem_head?
        (show p ∈ (searchLayer s q [ep] 1 l).head? by rw [hh]; rfl)
      rw [hcons]
      exact List.mem_cons_self _ _
    have := searchLayer_mem_lt s q [ep] 1 l B HB
      (by intro e he; rw [List.mem_singleton] at he; subst he; exact hep) p hp
    simpa [hh] using this

theorem descendSteps_lt (s : Store) (q : List Int) (B : Nat)
    (HB : ∀ l i, ∀ j ∈ nbrsAt s i l, j < B) :
    ∀ (k ep top : Nat), ep < B → descendSteps s q ep top k < B := by
  intro k
  induction k with
  | zero => intro ep top hep; exact hep
  | succ k ih =>
    intro ep top hep
    exact ih (bestEntry s q ep top) (top - 1) (bestEntry_lt s q ep top B (HB top) hep)

theorem selectNeighbors_mem_lt (s : Store) (cands : List (Nat × Int)) (maxKeep B : Nat)
    (hc : ∀ p ∈ cands, p.1 < B) :
    ∀ x ∈ selectNeighbors s cands maxKeep, x < B := by
  intro x hx
  rw [selectNeighbors] at hx
  obtain ⟨p, hp, hpx⟩ := List.mem_map.1 hx
  have hpc : p ∈ cands := (selectAux_sublist s cands maxKeep []).subset hp
  rw [← hpx]
  exact hc p hpc

theorem selectNeighbors_length_le (s : Store) (cands : List (Nat × Int)) (maxKeep : Nat) :
    (selectNeighbors s cands maxKeep).length ≤ maxKeep := by
  rw [selectNeighbors, List.length_map]
  exact selectAux_length s cands maxKeep []

theorem selectNeighbors_subset_fst (s : Store) (cands : List (Nat × Int)) (maxKeep : Nat) :
    ∀ x ∈ selectNeighbors s cands maxKeep, ∃ p ∈ cands, p.1 = x := by
  intro x hx
  rw [selectNeighbors] at hx
  obtain ⟨p, hp, hpx⟩ := List.mem_map.1 hx
  exact ⟨p, (selectAux_sublist s cands maxKeep []).subset hp, hpx⟩

theorem sortByDist_mem (s : Store) (tv : List Int) (ws : List Nat) :
    ∀ p ∈ sortByDist s tv ws, p.1 ∈ ws := by
  rw [sortByDist]
  refine foldl_inv (fun acc : List (Nat × Int) => ∀ p ∈ acc, p.1 ∈ ws) _ ws []
    (by intro p hp; cases hp) ?_
  intro u hu acc hacc p hp
  rcases (mem_insertSorted _ p acc).1 hp with rfl | hp
  · exact hu
  · exact hacc p hp

/-! ## Edge wiring: reverse-removal characterization -/

theorem nbrsAt_removeStep (s0 : Store) (l v u : Nat) (j l' : Nat) :
    nbrsAt (setNbrs s0 u l ((nbrsAt s0 u l).filter (fun w => w ≠ v))) j l' =
      if l' = l ∧ j = u then (nbrsAt s0 j l').filter (fun w => w ≠ v)
      else nbrsAt s0 j l' := by
  by_cases hl : l' = l
  · subst hl
    by_cases hju : j = u
    · subst hju
      rw [if_pos ⟨rfl, rfl⟩]
      by_cases hlen : j < s0.nodes.length
      · rw [nbrsAt_setNbrs_self _ _ _ _ hlen]
      · rw [setNbrs_oob _ _ _ _ (by omega), nbrsAt_oob s0 j l' (by omega)]
        rfl
    · rw [nbrsAt_setNbrs_ne_node _ _ _ _ _ _ hju, if_neg (by tauto)]
  · rw [nbrsAt_setNbrs_ne_layer _ _ _ _ _ _ hl, if_neg (by tauto)]

theorem removeReverse_cons (s0 : Store) (l v u : Nat) (ds : List Nat) :
    removeReverse s0 l v (u :: ds) =
      removeReverse (setNbrs s0 u l ((nbrsAt s0 u l).filter (fun w => w ≠ v))) l v ds := rfl

theorem removeReverse_eq (l v : Nat) :
    ∀ (ds : List Nat) (s0 : Store) (j l' : Nat),
      nbrsAt (removeReverse s0 l v ds) j l' =
        if l' = l ∧ j ∈ ds then (nbrsAt s0 j l').filter (fun w => w ≠ v)
        else nbrsAt s0 j l' := by
  intro ds
  induction ds with
  | nil =>
    intro s0 j l'
    rw [removeReverse, List.foldl_nil, if_neg (by simp)]
  | cons u ds ih =>
    intro s0 j l'
    rw [removeReverse_cons, ih, nbrsAt_removeStep]
    by_cases hl : l' = l
    · subst hl
      by_cases hju : j = u
      · subst hju
        by_cases hds : j ∈ ds
        · rw [if_pos ⟨rfl, hds⟩, if_pos ⟨rfl, rfl⟩, if_pos ⟨rfl, List.mem_cons_self _ _⟩]
          rw [List.filter_filter]
          congr 1
          funext a
          rw [Bool.and_self]
        · rw [if_neg (by tauto), if_pos ⟨rfl, rfl⟩, if_pos ⟨rfl, List.mem_cons_self _ _⟩]
      · by_cases hds : j ∈ ds
        · rw [if_pos ⟨rfl, hds⟩, if_neg (by tauto), if_pos ⟨rfl, List.mem_cons_of_mem _ hds⟩]
        · rw [if_neg (by tauto), if_neg (by tauto),
            if_neg (by rw [List.mem_cons]; tauto)]
    · rw [if_neg (by tauto), if_neg (by tauto), if_neg (by tauto)]

theorem removeReverse_len (s0 : Store) (l v : Nat) (ds : List Nat) (j l' : Nat) :
    (nbrsAt (removeReverse s0 l v ds) j l').length ≤ (nbrsAt s0 j l').length := by
  rw [removeReverse_eq]
  split
  · exact List.length_filter_le _ _
  · exact le_refl _

theorem removeReverse_skel (l v : Nat) :
    ∀ (ds : List Nat) (s0 : Store), Skel s0 (removeReverse s0 l v ds) := by
  intro ds
  induction ds with
  | nil => intro s0; exact Skel.refl s0
  | cons u ds ih =>
    intro s0
    rw [removeReverse_cons]
    exact Skel.trans (Skel.setNbrs s0 u l _) (ih _)

/-- The combined effect of one wiring step of `connectLayer`: append `v` to
`n`'s adjacency, then `addEdgeTo` for the reverse half with repair.  There
is a list `K` — `v`'s resulting adjacency — whose members come from `v`'s
old neighbors and `n`, bounded by the cap; every other node keeps its
(post-append) adjacency except that `v` is removed exactly from the
dropped reverse edges (`j` in `v`'s candidate set but not kept). -/
theorem wireStep_char (t : Store) (l n v : Nat)
    (hn : n < t.nodes.length) (hv : v < t.nodes.length) (hvn : v ≠ n)
    (hvv : v ∉ nbrsAt t v l) :
    ∃ K : List Nat,
      (∀ x ∈ K, x ∈ nbrsAt t v l ∨ x = n) ∧
      K.length ≤ capAt t.params l ∧
      nbrsAt (addEdgeTo (setNbrs t n l (nbrsAt t n l ++ [v])) l n v) v l = K ∧
      (∀ j, j ≠ v → ∀ x,
        (x ∈ nbrsAt (addEdgeTo (setNbrs t n l (nbrsAt t n l ++ [v])) l n v) j l ↔
          (x ∈ nbrsAt (setNbrs t n l (nbrsAt t n l ++ [v])) j l ∧
            ¬(x = v ∧ (j ∈ nbrsAt t v l ∨ j = n) ∧ j ∉ K)))) ∧
      (∀ j, j ≠ v →
        (nbrsAt (addEdgeTo (setNbrs t n l (nbrsAt t n l ++ [v])) l n v) j l).length ≤
          (nbrsAt (setNbrs t n l (nbrsAt t n l ++ [v])) j l).length) ∧
      (∀ j l', l' ≠ l →
        nbrsAt (addEdgeTo (setNbrs t n l (nbrsAt t n l ++ [v])) l n v) j l' =
          nbrsAt t j l') ∧
      Skel t (addEdgeTo (setNbrs t n l (nbrsAt t n l ++ [v])) l n v) := by
  set mid := setNbrs t n l (nbrsAt t n l ++ [v]) with hmiddef
  have hmlen : mid.nodes.length = t.nodes.length := length_setNbrs t n l _
  have hmid_v : nbrsAt mid v l = nbrsAt t v l := nbrsAt_setNbrs_ne_node t n l _ v l hvn
  have hmid_frame : ∀ j l', l' ≠ l → nbrsAt mid j l' = nbrsAt t j l' :=
    fun j l' h => nbrsAt_setNbrs_ne_layer t n l _ j l' h
  have hskel_mid : Skel t mid := Skel.setNbrs t n l _
  by_cases hover : capAt mid.params l < (nbrsAt mid v l ++ [n]).length
  · have hadd : addEdgeTo mid l n v =
        removeReverse (setNbrs mid v l (repruneList mid l v (nbrsAt mid v l ++ [n]))) l v
          ((nbrsAt mid v l ++ [n]).filter
            (fun u => u ∉ repruneList mid l v (nbrsAt mid v l ++ [n]))) := by
      rw [addEdgeTo, if_pos hover]
    refine ⟨repruneList mid l v (nbrsAt mid v l ++ [n]), ?_, ?_, ?_, ?_, ?_, ?_, ?_⟩
    · intro x hx
      rw [repruneList] at hx
      obtain ⟨p, hp, hpx⟩ := selectNeighbors_subset_fst mid _ _ x hx
      have hw := sortByDist_mem mid _ _ p hp
      rw [hmid_v] at hw
      rw [← hpx]
      rcases List.mem_append.1 hw with h | h
      · exact Or.inl h
      · exact Or.inr (List.mem_singleton.1 h)
    · rw [repruneList]
      exact selectNeighbors_length_le mid _ (capAt mid.params l)
    · have hvD : v ∉ (nbrsAt mid v l ++ [n]).filter
          (fun u => u ∉ repruneList mid l v (nbrsAt mid v l ++ [n])) := by
        intro hvd
        obtain ⟨hvw, -⟩ := List.mem_filter.1 hvd
        rw [hmid_v] at hvw
        rcases List.mem_append.1 hvw with h | h
        · exact hvv h
        · exact hvn (List.mem_singleton.1 h)
      rw [hadd, removeReverse_eq, if_neg (by tauto),
        nbrsAt_setNbrs_self mid v l _ (by omega)]
    · intro j hj x
      rw [hadd, removeReverse_eq]
      have hD : (j ∈ (nbrsAt mid v l ++ [n]).filter
            (fun u => u ∉ repruneList mid l v (nbrsAt mid v l ++ [n]))) ↔
          ((j ∈ nbrsAt t v l ∨ j = n) ∧
            j ∉ repruneList mid l v (nbrsAt mid v l ++ [n])) := by
        rw [List.mem_filter, List.mem_append, List.mem_singleton, hmid_v]
        simp only [decide_eq_true_eq]
      by_cases hjD : j ∈ (nbrsAt mid v l ++ [n]).filter
          (fun u => u ∉ repruneList mid l v (nbrsAt mid v l ++ [n]))
      · rw [if_pos ⟨rfl, hjD⟩, nbrsAt_setNbrs_ne_node mid v l _ j l hj, List.mem_filter]
        simp only [decide_eq_true_eq]
        have hcond := hD.1 hjD
        tauto
      · rw [if_neg (by tauto), nbrsAt_setNbrs_ne_node mid v l _ j l hj]
        have hcond : ¬((j ∈ nbrsAt t v l ∨ j = n) ∧
            j ∉ repruneList mid l v (nbrsAt mid v l ++ [n])) := fun hc => hjD (hD.2 hc)
        tauto
    · intro j hj
      rw [hadd]
      exact le_trans (removeReverse_len _ l v _ j l)
        (le_of_eq (by rw [nbrsAt_setNbrs_ne_node mid v l _ j l hj]))
    · intro j l' hl'
      rw [hadd, removeReverse_eq, if_neg (by tauto),
        nbrsAt_setNbrs_ne_layer mid v l _ j l' hl', hmid_frame j l' hl']
    · rw [hadd]
      exact Skel.trans hskel_mid
        (Skel.trans (Skel.setNbrs mid v l _) (removeReverse_skel l v _ _))
  · have hadd : addEdgeTo mid l n v = setNbrs mid v l (nbrsAt mid v l ++ [n]) := by
      rw [addEdgeTo, if_neg hover]
    refine ⟨nbrsAt mid v l ++ [n], ?_, ?_, ?_, ?_, ?_, ?_, ?_⟩
    · intro x hx
      rw [hmid_v] at hx
      rcases List.mem_append.1 hx with h | h
      · exact Or.inl h
      · exact Or.inr (List.mem_singleton.1 h)
    · exact le_of_not_lt hover
    · rw [hadd]
      exact nbrsAt_setNbrs_self mid v l _ (by omega)
    · intro j hj x
      rw [hadd, nbrsAt_setNbrs_ne_node mid v l _ j l hj]
      have hjK : (j ∈ nbrsAt t v l ∨ j = n) → j ∈ nbrsAt mid v l ++ [n] := by
        intro hc
        rcases hc with h | h
        · exact List.mem_append.2 (Or.inl (by rw [hmid_v]; exact h))
        · exact List.mem_append.2 (Or.inr (by rw [h]; exact List.mem_singleton.2 rfl))
      tauto
    · intro j hj
      rw [hadd, nbrsAt_setNbrs_ne_node mid v l _ j l hj]
    · intro j l' hl'
      rw [hadd, nbrsAt_setNbrs_ne_layer mid v l _ j l' hl', hmid_frame j l' hl']
    · rw [hadd]
      exact Skel.trans hskel_mid (Skel.setNbrs mid v l _)

/-- Invariant preservation across one wiring step of `connectLayer`:
bidirectionality, absence of self-loops and the index bound survive; `v`'s
degree ends under the cap, `n`'s grows by at most one, every other degree
does not grow; other layers are untouched. -/
theorem wireStep_inv (t : Store) (l n v B : Nat)
    (hn : n < t.nodes.length) (hv : v < t.nodes.length) (hvn : v ≠ n)
    (hsym : SymAt t l) (hns : NoSelfAt t l) (hb : NbrBound t l B)
    (hnB : n < B) (hvB : v < B) :
    SymAt (addEdgeTo (setNbrs t n l (nbrsAt t n l ++ [v])) l n v) l ∧
    NoSelfAt (addEdgeTo (setNbrs t n l (nbrsAt t n l ++ [v])) l n v) l ∧
    NbrBound (addEdgeTo (setNbrs t n l (nbrsAt t n l ++ [v])) l n v) l B ∧
    (nbrsAt (addEdgeTo (setNbrs t n l (nbrsAt t n l ++ [v])) l n v) n l).length ≤
      (nbrsAt t n l).length + 1 ∧
    (nbrsAt (addEdgeTo (setNbrs t n l (nbrsAt t n l ++ [v])) l n v) v l).length ≤
      capAt t.params l ∧
    (∀ j, j ≠ n → j ≠ v →
      (nbrsAt (addEdgeTo (setNbrs t n l (nbrsAt t n l ++ [v])) l n v) j l).length ≤
        (nbrsAt t j l).length) ∧
    (∀ j l', l' ≠ l →
      nbrsAt (addEdgeTo (setNbrs t n l (nbrsAt t n l ++ [v])) l n v) j l' = nbrsAt t j l') ∧
    Skel t (addEdgeTo (setNbrs t n l (nbrsAt t n l ++ [v])) l n v) := by
  obtain ⟨K, hKmem, hKlen, hKv, hmem, hlen, hframe, hskel⟩ :=
    wireStep_char t l n v hn hv hvn (hns v)
  set mid := setNbrs t n l (nbrsAt t n l ++ [v]) with hmiddef
  have hmid_n : nbrsAt mid n l = nbrsAt t n l ++ [v] := nbrsAt_setNbrs_self t n l _ hn
  have hmid_ne : ∀ j, j ≠ n → nbrsAt mid j l = nbrsAt t j l :=
    fun j hj => nbrsAt_setNbrs_ne_node t n l _ j l hj
  have hSym : SymAt (addEdgeTo mid l n v) l := by
    intro a b hab
    by_cases hba : a = b
    · rw [hba] at hab ⊢; exact hab
    by_cases hbv : b = v
    · rw [hbv] at hab ⊢
      rw [hKv] at hab
      rcases hKmem a hab with haov | han
      · by_cases hanv : a = n
        · rw [hanv] at hab ⊢
          apply (hmem n (Ne.symm hvn) v).2
          refine ⟨?_, ?_⟩
          · rw [hmid_n]; exact List.mem_append.2 (Or.inr (List.mem_singleton.2 rfl))
          · rintro ⟨-, -, hnK⟩; exact hnK hab
        · have hav : a ≠ v := fun h => (hns v) (h ▸ haov)
          apply (hmem a hav v).2
          refine ⟨?_, ?_⟩
          · rw [hmid_ne a hanv]; exact hsym a v haov
          · rintro ⟨-, -, haK⟩; exact haK hab
      · rw [han] at hab ⊢
        apply (hmem n (Ne.symm hvn) v).2
        refine ⟨?_, ?_⟩
        · rw [hmid_n]; exact List.mem_append.2 (Or.inr (List.mem_singleton.2 rfl))
        · rintro ⟨-, -, hnK⟩; exact hnK hab
    · obtain ⟨habmid, hnot⟩ := (hmem b hbv a).1 hab
      by_cases hbn : b = n
      · have han' : a ≠ n := fun h => hba (h.trans hbn.symm)
        rw [hbn] at habmid hnot ⊢
        rw [hmid_n] at habmid
        rcases List.mem_append.1 habmid with haon | hav
        · by_cases hava : a = v
          · rw [hava, hKv]
            by_contra hnK
            exact hnot ⟨hava, Or.inr rfl, hnK⟩
          · apply (hmem a hava n).2
            refine ⟨?_, ?_⟩
            · rw [hmid_ne a han']; exact hsym a n haon
            · rintro ⟨hnv, -, -⟩; exact (Ne.symm hvn) hnv
        · have hava : a = v := List.mem_singleton.1 hav
          rw [hava, hKv]
          by_contra hnK
          exact hnot ⟨hava, Or.inr rfl, hnK⟩
      · rw [hmid_ne b hbn] at habmid
        by_cases hava : a = v
        · rw [hava, hKv]
          rw [hava] at habmid
          by_contra hbK
          exact hnot ⟨hava, Or.inl (hsym v b habmid), hbK⟩
        · by_cases hann : a = n
          · rw [hann] at habmid ⊢
            apply (hmem n (Ne.symm hvn) b).2
            refine ⟨?_, ?_⟩
            · rw [hmid_n]; exact List.mem_append.2 (Or.inl (hsym n b habmid))
            · rintro ⟨hbv', -, -⟩; exact hbv hbv'
          · apply (hmem a hava b).2
            refine ⟨?_, ?_⟩
            · rw [hmid_ne a hann]; exact hsym a b habmid
            · rintro ⟨hbv', -, -⟩; exact hbv hbv'
  have hNS : NoSelfAt (addEdgeTo mid l n v) l := by
    intro a ha
    by_cases hav : a = v
    · rw [hav, hKv] at ha
      rcases hKmem v ha with h | h
      · exact hns v h
      · exact hvn h
    · obtain ⟨hamid, -⟩ := (hmem a hav a).1 ha
      by_cases han : a = n
      · rw [han, hmid_n] at hamid
        rcases List.mem_append.1 hamid with h | h
        · exact hns n h
        · exact hvn (List.mem_singleton.1 h).symm
      · rw [hmid_ne a han] at hamid
        exact hns a hamid
  have hBd : NbrBound (addEdgeTo mid l n v) l B := by
    intro j x hx
    by_cases hjv : j = v
    · rw [hjv, hKv] at hx
      rcases hKmem x hx with h | h
      · exact hb v x h
      · rw [h]; exact hnB
    · obtain ⟨hxmid, -⟩ := (hmem j hjv x).1 hx
      by_cases hjn : j = n
      · rw [hjn, hmid_n] at hxmid
        rcases List.mem_append.1 hxmid with h | h
        · exact hb n x h
        · rw [List.mem_singleton.1 h]; exact hvB
      · rw [hmid_ne j hjn] at hxmid
        exact hb j x hxmid
  refine ⟨hSym, hNS, hBd, ?_, ?_, ?_, hframe, hskel⟩
  · have := hlen n (Ne.symm hvn)
    rw [hmid_n, List.length_append] at this
    simpa using this
  · rw [hKv]
    exact hKlen
  · intro j hjn hjv
    have := hlen j hjv
    rw [hmid_ne j hjn] at this
    exact this

/-- Invariants across the whole wiring fold of `connectLayer`, with a
degree budget: `n`'s degree grows by at most the number of remaining
selected neighbors. -/
theorem wireFold_inv (l n cap B : Nat) :
    ∀ (sel : List Nat) (acc : Store),
      n < acc.nodes.length →
      (∀ v ∈ sel, v < n) →
      SymAt acc l → NoSelfAt acc l → NbrBound acc l B →
      n < B →
      (∀ j, j ≠ n → (nbrsAt acc j l).length ≤ cap) →
      ((nbrsAt acc n l).length + sel.length ≤ cap) →
      capAt acc.params l = cap →
      (SymAt (sel.foldl (fun t' u =>
          addEdgeTo (setNbrs t' n l (nbrsAt t' n l ++ [u])) l n u) acc) l ∧
       NoSelfAt (sel.foldl (fun t' u =>
          addEdgeTo (setNbrs t' n l (nbrsAt t' n l ++ [u])) l n u) acc) l ∧
       NbrBound (sel.foldl (fun t' u =>
          addEdgeTo (setNbrs t' n l (nbrsAt t' n l ++ [u])) l n u) acc) l B ∧
       (∀ j, (nbrsAt (sel.foldl (fun t' u =>
          addEdgeTo (setNbrs t' n l (nbrsAt t' n l ++ [u])) l n u) acc) j l).length ≤ cap) ∧
       (∀ j l', l' ≠ l → nbrsAt (sel.foldl (fun t' u =>
          addEdgeTo (setNbrs t' n l (nbrsAt t' n l ++ [u])) l n u) acc) j l' =
          nbrsAt acc j l') ∧
       Skel acc (sel.foldl (fun t' u =>
          addEdgeTo (setNbrs t' n l (nbrsAt t' n l ++ [u])) l n u) acc)) := by
  intro sel
  induction sel with
  | nil =>
    intro acc hn hsel hsym hns hb hnB hdeg hbudget hcap
    simp only [List.foldl_nil]
    refine ⟨hsym, hns, hb, ?_, fun _ _ _ => trivial, Skel.refl acc⟩
    intro j
    by_cases hj : j = n
    · rw [hj]; omega
    · exact hdeg j hj
  | cons v sel ih =>
    intro acc hn hsel hsym hns hb hnB hdeg hbudget hcap
    have hvn : v < n := hsel v (List.mem_cons_self _ _)
    have hv : v < acc.nodes.length := by omega
    obtain ⟨hS', hN', hB', hdegn, hdegv, hdego, hframe', hskel'⟩ :=
      wireStep_inv acc l n v B hn hv (by omega) hsym hns hb hnB (by omega)
    rw [List.foldl_cons]
    have hlen' : (addEdgeTo (setNbrs acc n l (nbrsAt acc n l ++ [v])) l n v).nodes.length =
        acc.nodes.length := hskel'.2.2.1
    have hparams' : (addEdgeTo (setNbrs acc n l (nbrsAt acc n l ++ [v])) l n v).params =
        acc.params := hskel'.1
    obtain ⟨hS, hN, hB2, hD, hF, hSk⟩ := ih
      (addEdgeTo (setNbrs acc n l (nbrsAt acc n l ++ [v])) l n v)
      (by omega)
      (fun u hu => hsel u (List.mem_cons_of_mem _ hu))
      hS' hN' hB'
      hnB
      (by
        intro j hj
        by_cases hjv : j = v
        · rw [hjv]
          rw [← hcap]
          exact hdegv
        · exact le_trans (hdego j hj hjv) (hdeg j hj))
      (by
        have hb1 : (nbrsAt acc n l).length + (sel.length + 1) ≤ cap := by
          simpa [Nat.add_comm, Nat.add_assoc, Nat.add_left_comm] using hbudget
        omega)
      (by rw [hparams', hcap])
    refine ⟨hS, hN, hB2, hD, ?_, Skel.trans hskel' hSk⟩
    intro j l' hl'
    rw [hF j l' hl', hframe' j l' hl']

/-- Invariants across `connectLayer`: wiring the selected neighbors of the
fresh node `n` preserves bidirectionality, no-self-loops and validity
(now up to `n + 1`), keeps every degree at layer `l` within the cap, and
touches no other layer. -/
theorem connectLayer_inv (s : Store) (l n : Nat) (sel : List Nat)
    (hn : n < s.nodes.length)
    (hsel : ∀ v ∈ sel, v < n)
    (hsym : SymAt s l) (hns : NoSelfAt s l) (hb : NbrBound s l n)
    (hdeg : ∀ j, j ≠ n → (nbrsAt s j l).length ≤ capAt s.params l)
    (hselLen : sel.length ≤ capAt s.params l) :
    SymAt (connectLayer s l n sel) l ∧ NoSelfAt (connectLayer s l n sel) l ∧
    NbrBound (connectLayer s l n sel) l (n + 1) ∧
    (∀ j, (nbrsAt (connectLayer s l n sel) j l).length ≤ capAt s.params l) ∧
    (∀ j l', l' ≠ l → nbrsAt (connectLayer s l n sel) j l' = nbrsAt s j l') ∧
    Skel s (connectLayer s l n sel) := by
  rw [connectLayer]
  have h0len : (setNbrs s n l []).nodes.length = s.nodes.length := length_setNbrs s n l []
  have h0n : nbrsAt (setNbrs s n l []) n l = [] := nbrsAt_setNbrs_self s n l [] hn
  have h0ne : ∀ j, j ≠ n → nbrsAt (setNbrs s n l []) j l = nbrsAt s j l :=
    fun j hj => nbrsAt_setNbrs_ne_node s n l [] j l hj
  have h0frame : ∀ j l', l' ≠ l → nbrsAt (setNbrs s n l []) j l' = nbrsAt s j l' :=
    fun j l' hl' => nbrsAt_setNbrs_ne_layer s n l [] j l' hl'
  have h0sym : SymAt (setNbrs s n l []) l := by
    intro a b hab
    by_cases hbn : b = n
    · rw [hbn, h0n] at hab; cases hab
    · rw [h0ne b hbn] at hab
      have hanb : a < n := hb b a hab
      rw [h0ne a (by omega)]
      exact hsym a b hab
  have h0ns : NoSelfAt (setNbrs s n l []) l := by
    intro a ha
    by_cases han : a = n
    · rw [han, h0n] at ha; cases ha
    · rw [h0ne a han] at ha; exact hns a ha
  have h0b : NbrBound (setNbrs s n l []) l (n + 1) := by
    intro i j hj
    by_cases hin : i = n
    · rw [hin, h0n] at hj; cases hj
    · rw [h0ne i hin] at hj
      have := hb i j hj
      omega
  have h0deg : ∀ j, j ≠ n → (nbrsAt (setNbrs s n l []) j l).length ≤ capAt s.params l := by
    intro j hj
    rw [h0ne j hj]
    exact hdeg j hj
  have h0budget : (nbrsAt (setNbrs s n l []) n l).length + sel.length ≤ capAt s.params l := by
    rw [h0n]
    simpa using hselLen
  obtain ⟨hS, hN, hB2, hD, hF, hSk⟩ :=
    wireFold_inv l n (capAt s.params l) (n + 1) sel (setNbrs s n l [])
      (by omega) hsel h0sym h0ns h0b (by omega) h0deg h0budget rfl
  refine ⟨hS, hN, hB2, hD, ?_, Skel.trans (Skel.setNbrs s n l []) hSk⟩
  intro j l' hl'
  rw [hF j l' hl', h0frame j l' hl']

/-- Invariants across one layer of the builder's connection loop
(search, select, wire): all graph invariants survive, other layers are
untouched, and the next entry point stays a pre-existing node. -/
theorem connectStep_inv (q : List Int) (n l : Nat) (s : Store) (ep : Nat)
    (hlen : s.nodes.length = n + 1) (hep : ep < n)
    (hb_l : NbrBound s l n)
    (hsym : ∀ l', SymAt s l') (hns : ∀ l', NoSelfAt s l')
    (hb_hi : ∀ l', NbrBound s l' (n + 1))
    (hdeg : DegOk s) :
    (∀ l', SymAt (connectStep q n l s ep).1 l') ∧
    (∀ l', NoSelfAt (connectStep q n l s ep).1 l') ∧
    (∀ l', NbrBound (connectStep q n l s ep).1 l' (n + 1)) ∧
    DegOk (connectStep q n l s ep).1 ∧
    (∀ j l', l' ≠ l → nbrsAt (connectStep q n l s ep).1 j l' = nbrsAt s j l') ∧
    Skel s (connectStep q n l s ep).1 ∧
    (connectStep q n l s ep).2 < n := by
  have hcands : ∀ p ∈ searchLayer s q [ep] s.params.efConstruction l, p.1 < n :=
    searchLayer_mem_lt s q [ep] _ l n hb_l
      (by intro e he; rw [List.mem_singleton] at he; rw [he]; exact hep)
  have hkept : ∀ v ∈ selectNeighbors s (searchLayer s q [ep] s.params.efConstruction l)
      (capAt s.params l), v < n :=
    selectNeighbors_mem_lt s _ _ n hcands
  have hkeptLen := selectNeighbors_length_le s
    (searchLayer s q [ep] s.params.efConstruction l) (capAt s.params l)
  obtain ⟨hS, hN, hB2, hD, hF, hSk⟩ :=
    connectLayer_inv s l n _ (by omega) hkept (hsym l) (hns l) hb_l
      (fun j _ => hdeg j l) hkeptLen
  have hc1 : (connectStep q n l s ep).1 = connectLayer s l n
      (selectNeighbors s (searchLayer s q [ep] s.params.efConstruction l)
        (capAt s.params l)) := rfl
  have hframe : ∀ j l', l' ≠ l → nbrsAt (connectStep q n l s ep).1 j l' = nbrsAt s j l' := by
    intro j l' hl'
    rw [hc1]
    exact hF j l' hl'
  refine ⟨?_, ?_, ?_, ?_, hframe, by rw [hc1]; exact hSk, ?_⟩
  · intro l'
    by_cases hll : l' = l
    · rw [hc1, hll]; exact hS
    · intro a b hab
      rw [hframe b l' hll] at hab
      rw [hframe a l' hll]
      exact hsym l' a b hab
  · intro l'
    by_cases hll : l' = l
    · rw [hc1, hll]; exact hN
    · intro a ha
      rw [hframe a l' hll] at ha
      exact hns l' a ha
  · intro l'
    by_cases hll : l' = l
    · rw [hc1, hll]; exact hB2
    · intro i j hj
      rw [hframe i l' hll] at hj
      exact hb_hi l' i j hj
  · intro i l'
    have hparams : (connectStep q n l s ep).1.params = s.params := by rw [hc1]; exact hSk.1
    rw [hparams]
    by_cases hll : l' = l
    · rw [hll, hc1]; exact hD i
    · rw [hframe i l' hll]
      exact hdeg i l'
  · have hc2 : (connectStep q n l s ep).2 =
        (((searchLayer s q [ep] s.params.efConstruction l).head?).map Prod.fst).getD ep := rfl
    rw [hc2]
    cases hh : (searchLayer s q [ep] s.params.efConstruction l).head? with
    | none => simpa using hep
    | some p =>
      have hcons := List.eq_cons_of_mem_head?
        (show p ∈ (searchLayer s q [ep] s.params.efConstruction l).head? by rw [hh]; rfl)
      have hp : p ∈ searchLayer s q [ep] s.params.efConstruction l := by
        rw [hcons]; exact List.mem_cons_self _ _
      simpa [hh] using hcands p hp

/-- Invariants across the whole connection loop, layers `lmax` down to 0. -/
theorem connectFrom_inv (q : List Int) (n : Nat) :
    ∀ (lmax : Nat) (s : Store) (ep : Nat),
      s.nodes.length = n + 1 → ep < n →
      (∀ l' ≤ lmax, NbrBound s l' n) →
      (∀ l', SymAt s l') → (∀ l', NoSelfAt s l') →
      (∀ l', NbrBound s l' (n + 1)) → DegOk s →
      ((∀ l', SymAt (connectFrom q n lmax s ep) l') ∧
       (∀ l', NoSelfAt (connectFrom q n lmax s ep) l') ∧
       (∀ l', NbrBound (connectFrom q n lmax s ep) l' (n + 1)) ∧
       DegOk (connectFrom q n lmax s ep) ∧
       Skel s (connectFrom q n lmax s ep)) := by
  intro lmax
  induction lmax with
  | zero =>
    intro s ep hlen hep hblow hsym hns hbhi hdeg
    obtain ⟨h1, h2, h3, h4, h5, h6, h7⟩ :=
      connectStep_inv q n 0 s ep hlen hep (hblow 0 (le_refl 0)) hsym hns hbhi hdeg
    exact ⟨h1, h2, h3, h4, h6⟩
  | succ lmax ih =>
    intro s ep hlen hep hblow hsym hns hbhi hdeg
    obtain ⟨h1, h2, h3, h4, h5, h6, h7⟩ :=
      connectStep_inv q n (lmax + 1) s ep hlen hep (hblow (lmax + 1) (le_refl _)) hsym hns
        hbhi hdeg
    have hlen' : (connectStep q n (lmax + 1) s ep).1.nodes.length = n + 1 := by
      rw [h6.2.2.1, hlen]
    have hblow' : ∀ l' ≤ lmax, NbrBound (connectStep q n (lmax + 1) s ep).1 l' n := by
      intro l' hl' i j hj
      rw [h5 i l' (by omega)] at hj
      exact hblow l' (by omega) i j hj
    obtain ⟨g1, g2, g3, g4, g5⟩ := ih (connectStep q n (lmax + 1) s ep).1
      (connectStep q n (lmax + 1) s ep).2 hlen' h7 hblow' h1 h2 h3 h4
    exact ⟨g1, g2, g3, g4, Skel.trans h6 g5⟩

/-! ## Insertion invariants -/

theorem foldr_max_append_single : ∀ (a : List Nat) (b : Nat),
    ((a ++ [b]).foldr max 0) = max (a.foldr max 0) b := by
  intro a
  induction a with
  | nil => intro b; exact Nat.max_comm b 0
  | cons x xs ih =>
    intro b
    rw [List.cons_append, List.foldr_cons, List.foldr_cons, ih, Nat.max_assoc]

theorem map_level_eq :
    ∀ (a b : List Node), a.length = b.length →
      (∀ j, (a.getD j { id := 0, vec := [], level := 0, nbrs := [] }).level =
            (b.getD j { id := 0, vec := [], level := 0, nbrs := [] }).level) →
      a.map Node.level = b.map Node.level := by
  intro a
  induction a with
  | nil =>
    intro b hlen _
    cases b with
    | nil => rfl
    | cons y ys => simp at hlen
  | cons x xs ih =>
    intro b hlen hptr
    cases b with
    | nil => simp at hlen
    | cons y ys =>
      have h0 : x.level = y.level := hptr 0
      rw [List.map_cons, List.map_cons, h0, ih ys (by simpa using hlen) (fun j => hptr (j + 1))]

theorem maxLevel_eq_of_skel {s t : Store} (h : Skel s t) : maxLevel t = maxLevel s := by
  rw [maxLevel, maxLevel,
    map_level_eq t.nodes s.nodes h.2.2.1 (fun j => (h.2.2.2 j).2.2)]

theorem length_appendNode (s : Store) (nd : Node) :
    (appendNode s nd).nodes.length = s.nodes.length + 1 := by
  rw [appendNode]
  simp

theorem maxLevel_appendNode (s : Store) (nd : Node) :
    maxLevel (appendNode s nd) = max (maxLevel s) nd.level := by
  rw [maxLevel, maxLevel, appendNode]
  simp only []
  rw [List.map_append]
  exact foldr_max_append_single _ _

theorem newNodeOf_nbrs (newId : Int) (v : List Int) (lNode : Nat) :
    ∀ l', (newNodeOf newId v lNode).nbrs.getD l' [] = [] := by
  intro l'
  rw [newNodeOf]
  exact getD_replicate_nil _ _

theorem nbrsAt_appendNode (s : Store) (nd : Node) (hnd : ∀ l', nd.nbrs.getD l' [] = [])
    (j l' : Nat) :
    nbrsAt (appendNode s nd) j l' = if j = s.nodes.length then [] else nbrsAt s j l' := by
  by_cases hj : j = s.nodes.length
  · rw [if_pos hj, hj, nbrsAt]
    rw [show nodeAt (appendNode s nd) s.nodes.length = nd from nodeAt_append_self s nd]
    exact hnd l'
  · rw [if_neg hj]
    by_cases hlt : j < s.nodes.length
    · rw [nbrsAt, nbrsAt,
        show nodeAt (appendNode s nd) j = nodeAt s j from nodeAt_append_lt s nd j hlt]
    · rw [nbrsAt_oob _ _ _ (by rw [length_appendNode]; omega),
        nbrsAt_oob s j l' (by omega)]

theorem nodeAt_appendNode_self (s : Store) (nd : Node) :
    nodeAt (appendNode s nd) s.nodes.length = nd := nodeAt_append_self s nd

theorem nodeAt_appendNode_lt (s : Store) (nd : Node) (j : Nat) (h : j < s.nodes.length) :
    nodeAt (appendNode s nd) j = nodeAt s j := nodeAt_append_lt s nd j h

/-- The insertion success path preserves the graph and entry-point
invariants, keeps the parameters, adds exactly one node, and moves the
entry point to the new node whenever its sampled layer exceeds the
previous highest layer. -/
theorem insertOk_inv (s : Store) (newId : Int) (v : List Int) (lNode : Nat)
    (hg : GraphInv s) (he : EntryInv s) :
    GraphInv (insertOk s newId v lNode) ∧ EntryInv (insertOk s newId v lNode) ∧
    (insertOk s newId v lNode).params = s.params ∧
    (insertOk s newId v lNode).nodes.length = s.nodes.length + 1 ∧
    (maxLevel s < lNode → (insertOk s newId v lNode).entry = s.nodes.length) := by
  by_cases hemp : s.nodes.isEmpty = true
  · have hnil : s.nodes = [] := by
      cases hn : s.nodes with
      | nil => rfl
      | cons a rest => rw [hn] at hemp; cases hemp
    have hins : insertOk s newId v lNode =
        { params := s.params, nodes := [newNodeOf newId v lNode], entry := 0 } := by
      rw [insertOk, if_pos hemp]
    rw [hins]
    have hnb : ∀ j l', nbrsAt
        { params := s.params, nodes := [newNodeOf newId v lNode], entry := (0 : Nat) } j l' =
        [] := by
      intro j l'
      match j with
      | 0 =>
        rw [nbrsAt]
        exact newNodeOf_nbrs newId v lNode l'
      | j + 1 =>
        exact nbrsAt_oob _ _ _ (by simp)
    refine ⟨⟨?_, ?_, ?_, ?_⟩, ?_, rfl, by simp [hnil], ?_⟩
    · intro l i j hj; rw [hnb] at hj; cases hj
    · intro l a b hab; rw [hnb] at hab; cases hab
    · intro l a ha; rw [hnb] at ha; cases ha
    · intro i l
      rw [hnb]
      exact Nat.zero_le _
    · intro _
      refine ⟨by simp, ?_⟩
      simp [nodeAt, maxLevel, newNodeOf]
    · intro _
      rw [hnil]
      rfl
  · have hne : s.nodes ≠ [] := by
      intro h
      rw [h] at hemp
      exact hemp rfl
    obtain ⟨hev, helv⟩ := he hne
    have hins : insertOk s newId v lNode =
        growEntry
          (connectFrom v s.nodes.length (min lNode (nodeAt s s.entry).level)
            (appendNode s (newNodeOf newId v lNode))
            (descendSteps (appendNode s (newNodeOf newId v lNode)) v s.entry
              (nodeAt s s.entry).level ((nodeAt s s.entry).level - lNode)))
          (nodeAt s s.entry).level lNode s.nodes.length := by
      rw [insertOk, if_neg hemp]
    set n := s.nodes.length with hndef
    set topL := (nodeAt s s.entry).level with htopdef
    set s1 := appendNode s (newNodeOf newId v lNode) with hs1def
    set ep := descendSteps s1 v s.entry topL (topL - lNode) with hepdef
    set s2 := connectFrom v n (min lNode topL) s1 ep with hs2def
    rw [hins]
    have hs1len : s1.nodes.length = n + 1 := length_appendNode s _
    have hs1nb : ∀ j l', nbrsAt s1 j l' = if j = n then [] else nbrsAt s j l' :=
      fun j l' => nbrsAt_appendNode s _ (newNodeOf_nbrs newId v lNode) j l'
    have hs1blow : ∀ l', NbrBound s1 l' n := by
      intro l' i j hj
      rw [hs1nb] at hj
      by_cases hi : i = n
      · rw [if_pos hi] at hj; cases hj
      · rw [if_neg hi] at hj
        exact hg.1 l' i j hj
    have hs1sym : ∀ l', SymAt s1 l' := by
      intro l' a b hab
      rw [hs1nb] at hab
      by_cases hb : b = n
      · rw [if_pos hb] at hab; cases hab
      · rw [if_neg hb] at hab
        have han : a < n := hg.1 l' b a hab
        rw [hs1nb, if_neg (by omega)]
        exact hg.2.1 l' a b hab
    have hs1ns : ∀ l', NoSelfAt s1 l' := by
      intro l' a ha
      rw [hs1nb] at ha
      by_cases hai : a = n
      · rw [if_pos hai] at ha; cases ha
      · rw [if_neg hai] at ha
        exact hg.2.2.1 l' a ha
    have hs1bhi : ∀ l', NbrBound s1 l' (n + 1) := by
      intro l' i j hj
      have := hs1blow l' i j hj
      omega
    have hs1deg : DegOk s1 := by
      intro i l'
      rw [hs1nb]
      by_cases hi : i = n
      · rw [if_pos hi]
        exact Nat.zero_le _
      · rw [if_neg hi]
        exact hg.2.2.2 i l'
    have hep : ep < n := by
      rw [hepdef]
      exact descendSteps_lt s1 v n (fun l i j hj => hs1blow l i j hj)
        (topL - lNode) s.entry topL hev
    obtain ⟨g1, g2, g3, g4, g5⟩ :=
      connectFrom_inv v n (min lNode topL) s1 ep hs1len hep
        (fun l' _ => hs1blow l') hs1sym hs1ns hs1bhi hs1deg
    have hs2len : s2.nodes.length = n + 1 := by rw [g5.2.2.1, hs1len]
    have hfin_nodes : (growEntry s2 topL lNode n).nodes = s2.nodes := by
      rw [growEntry]; split <;> rfl
    have hfin_params : (growEntry s2 topL lNode n).params = s2.params := by
      rw [growEntry]; split <;> rfl
    have hfin_nb : ∀ j l', nbrsAt (growEntry s2 topL lNode n) j l' = nbrsAt s2 j l' := by
      intro j l'
      rw [nbrsAt, nbrsAt, nodeAt, nodeAt, hfin_nodes]
    have hfin_level : ∀ j, (nodeAt (growEntry s2 topL lNode n) j).level =
        (nodeAt s2 j).level := by
      intro j
      rw [nodeAt, nodeAt, hfin_nodes]
    have hfin_maxL : maxLevel (growEntry s2 topL lNode n) = maxLevel s2 := by
      rw [maxLevel, maxLevel, hfin_nodes]
    have hfin_len : (growEntry s2 topL lNode n).nodes.length = n + 1 := by
      rw [hfin_nodes, hs2len]
    have hs2maxL : maxLevel s2 = max (maxLevel s) lNode := by
      rw [maxLevel_eq_of_skel g5, hs1def, maxLevel_appendNode]
      rfl
    have hparams2 : s2.params = s.params := g5.1
    refine ⟨⟨?_, ?_, ?_, ?_⟩, ?_, ?_, ?_, ?_⟩
    · intro l i j hj
      rw [hfin_nb] at hj
      rw [hfin_len]
      exact g3 l i j hj
    · intro l a b hab
      rw [hfin_nb] at hab
      rw [hfin_nb]
      exact g1 l a b hab
    · intro l a ha
      rw [hfin_nb] at ha
      exact g2 l a ha
    · intro i l
      rw [hfin_nb]
      have : (growEntry s2 topL lNode n).params = s.params := by rw [hfin_params, hparams2]
      rw [this]
      have := g4 i l
      rw [hparams2] at this
      exact this
    · intro _
      by_cases hcase : topL < lNode
      · have hfe : (growEntry s2 topL lNode n).entry = n := by
          rw [growEntry, if_pos hcase]
        refine ⟨by rw [hfe, hfin_len]; omega, ?_⟩
        rw [hfe, hfin_level n, (g5.2.2.2 n).2.2, hs1def, nodeAt_appendNode_self,
          hfin_maxL, hs2maxL]
        rw [show (newNodeOf newId v lNode).level = lNode from rfl]
        rw [← helv]
        omega
      · have hfe : (growEntry s2 topL lNode n).entry = s2.entry := by
          rw [growEntry, if_neg hcase]
        have hs2e : s2.entry = s.entry := by
          rw [g5.2.1, hs1def]
          rfl
        refine ⟨by rw [hfe, hs2e, hfin_len]; omega, ?_⟩
        rw [hfe, hs2e, hfin_level s.entry, (g5.2.2.2 s.entry).2.2, hs1def,
          nodeAt_appendNode_lt s _ s.entry hev, hfin_maxL, hs2maxL, ← helv]
        omega
    · rw [hfin_params, hparams2]
    · rw [hfin_len]
    · intro hml
      have hcase : topL < lNode := by rw [helv]; exact hml
      rw [growEntry, if_pos hcase]

theorem insert_ok_eq (s : Store) (newId : Int) (v : List Int) (lNode : Nat) (s' : Store)
    (h : insert s newId v lNode = .ok s') : s' = insertOk s newId v lNode := by
  rw [insert] at h
  by_cases h1 : ∃ nd ∈ s.nodes, nd.id = newId
  · rw [if_pos h1] at h; cases h
  · rw [if_neg h1] at h
    by_cases h2 : v.length ≠ s.params.dim
    · rw [if_pos h2] at h; cases h
    · rw [if_neg h2] at h
      exact (Except.ok.inj h).symm

theorem applyInsert_inv (s : Store) (newId : Int) (v : List Int) (lNode : Nat)
    (hg : GraphInv s) (he : EntryInv s) :
    GraphInv (applyInsert s newId v lNode) ∧ EntryInv (applyInsert s newId v lNode) ∧
    (applyInsert s newId v lNode).params = s.params := by
  rw [applyInsert]
  cases hi : insert s newId v lNode with
  | error e => exact ⟨hg, he, rfl⟩
  | ok s' =>
    have hs' : s' = insertOk s newId v lNode := insert_ok_eq s newId v lNode s' hi
    obtain ⟨a, b, c, -, -⟩ := insertOk_inv s newId v lNode hg he
    rw [hs']
    exact ⟨a, b, c⟩

theorem buildFrom_inv : ∀ (reqs : List InsertReq) (s : Store), GraphInv s → EntryInv s →
    GraphInv (buildFrom s reqs) ∧ EntryInv (buildFrom s reqs) ∧
    (buildFrom s reqs).params = s.params := by
  intro reqs
  induction reqs with
  | nil => intro s hg he; exact ⟨hg, he, rfl⟩
  | cons r rest ih =>
    intro s hg he
    rw [buildFrom]
    obtain ⟨a, b, c⟩ := applyInsert_inv s r.id r.vec r.level hg he
    obtain ⟨a', b', c'⟩ := ih (applyInsert s r.id r.vec r.level) a b
    exact ⟨a', b', c'.trans c⟩

theorem graphInv_empty (p : HnswParams) : GraphInv (emptyStore p) := by
  refine ⟨?_, ?_, ?_, ?_⟩
  · intro l i j hj
    rw [nbrsAt_oob _ _ _ (Nat.zero_le _)] at hj
    cases hj
  · intro l a b hab
    rw [nbrsAt_oob _ _ _ (Nat.zero_le _)] at hab
    cases hab
  · intro l a ha
    rw [nbrsAt_oob _ _ _ (Nat.zero_le _)] at ha
    cases ha
  · intro i l
    rw [nbrsAt_oob _ _ _ (Nat.zero_le _)]
    exact Nat.zero_le _

theorem entryInv_empty (p : HnswParams) : EntryInv (emptyStore p) :=
  fun h => absurd rfl h

/-! ## Graph invariant claims (C2, C3, C4) -/

/-- C2: after any sequence of insertions into a fresh index, every node's
neighbor count never exceeds the configured cap — `2 × max_degree` at
layer 0 and `max_degree` at every layer above 0. -/
theorem degree_bound_spec (p : HnswParams) (reqs : List InsertReq) :
    ∀ i, (nbrsAt (buildFrom (emptyStore p) reqs) i 0).length ≤ 2 * p.maxDegree ∧
      ∀ l, 0 < l → (nbrsAt (buildFrom (emptyStore p) reqs) i l).length ≤ p.maxDegree := by
  intro i
  obtain ⟨hg, -, hp⟩ := buildFrom_inv reqs (emptyStore p) (graphInv_empty p) (entryInv_empty p)
  constructor
  · have := hg.2.2.2 i 0
    rw [hp] at this
    rw [show capAt (emptyStore p).params 0 = 2 * p.maxDegree from rfl] at this
    exact this
  · intro l hl
    have := hg.2.2.2 i l
    rw [hp] at this
    rw [show capAt (emptyStore p).params l = capAt p l from rfl] at this
    rw [capAt, if_neg (by omega)] at this
    exact this

/-- Closed-form check of C2 on a two-insertion build with `max_degree = 1`. -/
theorem degree_bound_spec_witness :
    (nbrsAt (buildFrom
      (emptyStore { dim := 1, maxDegree := 1, efConstruction := 1, metric := Metric.l2 })
      [{ id := 0, vec := [0], level := 0 }, { id := 1, vec := [2], level := 0 }]) 0 1).length ≤ 1 ∧
    (nbrsAt (buildFrom
      (emptyStore { dim := 1, maxDegree := 1, efConstruction := 1, metric := Metric.l2 })
      [{ id := 0, vec := [0], level := 0 }, { id := 1, vec := [2], level := 0 }]) 0 0).length ≤
      2 * 1 := by
  constructor
  · exact (degree_bound_spec
      { dim := 1, maxDegree := 1, efConstruction := 1, metric := Metric.l2 }
      [{ id := 0, vec := [0], level := 0 }, { id := 1, vec := [2], level := 0 }] 0).2 1
      (by decide)
  · exact (degree_bound_spec
      { dim := 1, maxDegree := 1, efConstruction := 1, metric := Metric.l2 }
      [{ id := 0, vec := [0], level := 0 }, { id := 1, vec := [2], level := 0 }] 0).1

/-- C3: after every completed insertion sequence, adjacency is
bidirectional at every layer: `b` is a neighbor of `a` iff `a` is a
neighbor of `b`. -/
theorem bidirectional_spec (p : HnswParams) (reqs : List InsertReq) :
    ∀ a b l, a ∈ nbrsAt (buildFrom (emptyStore p) reqs) b l ↔
      b ∈ nbrsAt (buildFrom (emptyStore p) reqs) a l := by
  intro a b l
  obtain ⟨hg, -, -⟩ := buildFrom_inv reqs (emptyStore p) (graphInv_empty p) (entryInv_empty p)
  exact ⟨fun h => hg.2.1 l a b h, fun h => hg.2.1 l b a h⟩

/-- C4: in every state reachable by insertions where at least one node
exists, the entry point is a valid node whose level equals the globally
highest populated layer; and a successful insertion whose sampled layer
exceeds the current highest layer moves the entry point to the new node. -/
theorem entry_point_spec (p : HnswParams) (reqs : List InsertReq) :
    ((buildFrom (emptyStore p) reqs).nodes ≠ [] →
      (buildFrom (emptyStore p) reqs).entry < (buildFrom (emptyStore p) reqs).nodes.length ∧
      (nodeAt (buildFrom (emptyStore p) reqs)
        (buildFrom (emptyStore p) reqs).entry).level =
        maxLevel (buildFrom (emptyStore p) reqs)) ∧
    (∀ (newId : Int) (v : List Int) (lNode : Nat) (s' : Store),
      insert (buildFrom (emptyStore p) reqs) newId v lNode = .ok s' →
      maxLevel (buildFrom (emptyStore p) reqs) < lNode →
      s'.entry = (buildFrom (emptyStore p) reqs).nodes.length) := by
  obtain ⟨hg, he, -⟩ := buildFrom_inv reqs (emptyStore p) (graphInv_empty p) (entryInv_empty p)
  refine ⟨he, ?_⟩
  intro newId v lNode s' hok hml
  rw [insert_ok_eq _ newId v lNode s' hok]
  exact (insertOk_inv _ newId v lNode hg he).2.2.2.2 hml

/-- Closed-form check of C4: after one insertion the entry point is node 0
at the (only) populated layer; a new insertion sampled at layer 1 (above
the current top layer 0) moves the entry point to the new node, index 1. -/
theorem entry_point_spec_witness :
    (buildFrom (emptyStore { dim := 1, maxDegree := 1, efConstruction := 1, metric := Metric.l2 })
      [{ id := 0, vec := [0], level := 0 }]).entry <
      (buildFrom (emptyStore { dim := 1, maxDegree := 1, efConstruction := 1, metric := Metric.l2 })
        [{ id := 0, vec := [0], level := 0 }]).nodes.length ∧
    (insertOk (buildFrom
        (emptyStore { dim := 1, maxDegree := 1, efConstruction := 1, metric := Metric.l2 })
        [{ id := 0, vec := [0], level := 0 }]) 1 [1] 1).entry =
      (buildFrom (emptyStore { dim := 1, maxDegree := 1, efConstruction := 1, metric := Metric.l2 })
        [{ id := 0, vec := [0], level := 0 }]).nodes.length := by
  have h := entry_point_spec
    { dim := 1, maxDegree := 1, efConstruction := 1, metric := Metric.l2 }
    [{ id := 0, vec := [0], level := 0 }]
  constructor
  · exact (h.1 (by decide)).1
  · exact h.2 1 [1] 1 _ rfl (by decide)

end Vsag
